import Mathlib

/-!
# En Guàrdia scraper: collector and storage

A shallow embedding of `internal/collector/collector.go`,
`internal/storage/storage.go` and the constants of
`internal/constants/constants.go`.

Go strings are modelled by the sequence of runes a `for _, r := range s` loop
yields (`List Char`); `len(s)` is the length of the UTF-8 encoding.  The texts
the collector works on come out of `encoding/json`, which delivers valid UTF-8.
Byte-level results (`s[:n]`) are lists of bytes.

What the program reads from outside (the clock, the iteration order of a map,
the answers of the remote API, the file system and the failures of its
operations) is an explicit argument of the model.
-/

namespace EnGuardia

/-! ## Go strings -/

/-- UTF-8 encoding of a rune sequence: the bytes of the Go string. -/
def utf8 (s : List Char) : List UInt8 :=
  s.flatMap String.utf8EncodeChar

/-- Go `len(s)`: the number of bytes of the UTF-8 encoding. -/
def len (s : List Char) : Nat :=
  (s.map Char.utf8Size).sum

/-! ## Constants (`internal/constants/constants.go`) -/

namespace constants

def BaseURL : List Char := "https://www.3cat.cat".toList
def CCMAMediaBaseURL : List Char := "https://img.3cat.cat/multimedia".toList
def FallbackAudioURL : List Char := "https://example.com/failed-audio".toList
def EpisodeURLPattern : List Char := "/3cat/en-guardia/audio".toList

def MP3Extension : List Char := ".mp3".toList
def JSONExtension : List Char := ".json".toList
def JPGExtension : List Char := ".jpg".toList
def PNGExtension : List Char := ".png".toList

def TempSuffix : List Char := ".tmp".toList

def MinAudioFileSize : Nat := 1024 * 1024
def MinImageFileSize : Nat := 1024 * 5
def MinDownloadSize : Nat := 1024 * 100
def MaxFilenameLen : Nat := 120

/-- The entity table, in the order of its declaration.  It is a Go map: a
`range` loop visits it in an unspecified order. -/
def HTMLEntities : List (List Char × List Char) :=
  [ ("&amp;".toList, "&".toList),
    ("&lt;".toList, "<".toList),
    ("&gt;".toList, ">".toList),
    ("&quot;".toList, [Char.ofNat 34]),
    ("&#x27;".toList, [Char.ofNat 39]),
    ("&apos;".toList, [Char.ofNat 39]) ]

def TextSuffixes : List (List Char) :=
  [ "… Més".toList, "...Més".toList ]

/-- The strings `/ \ : * ? " < > |`. -/
def ProblematicChars : List (List Char) :=
  [ ['/'], [Char.ofNat 92], [':'], ['*'], ['?'], [Char.ofNat 34], ['<'], ['>'], ['|'] ]

def APIStatusOK : List Char := "OK".toList

end constants

/-! ## Go standard library: `unicode`, `strings`, `regexp`, `fmt`, `strconv` -/

/-- The range tables of Go's `unicode` package above the fast paths the
library hard-codes (Latin-1 for the predicates, ASCII for the case mapping). -/
structure UnicodeTables where
  /-- Membership in `unicode.Letter` for runes above U+00FF. -/
  letter : Char → Bool
  /-- Membership in `unicode.Digit` for runes above U+00FF. -/
  digit : Char → Bool
  /-- Lower-case mapping `unicode.To(unicode.LowerCase, r)` for runes above U+007F. -/
  lower : Char → Char

/-- Tables with no letter, no digit and no case pair above the fast paths. -/
def UnicodeTables.latin1 : UnicodeTables :=
  ⟨fun _ => false, fun _ => false, fun c => c⟩

/-- Go `unicode.IsLetter`: the Latin-1 property table, then the range tables. -/
def IsLetter (u : UnicodeTables) (r : Char) : Bool :=
  let n := r.toNat
  if n ≤ 0xFF then
    (0x41 ≤ n && n ≤ 0x5A) || (0x61 ≤ n && n ≤ 0x7A) || n == 0xAA || n == 0xB5 || n == 0xBA
      || (0xC0 ≤ n && n ≤ 0xD6) || (0xD8 ≤ n && n ≤ 0xF6) || 0xF8 ≤ n
  else u.letter r

/-- Go `unicode.IsDigit`: `'0' <= r && r <= '9'` in Latin-1, then the range tables. -/
def IsDigit (u : UnicodeTables) (r : Char) : Bool :=
  let n := r.toNat
  if n ≤ 0xFF then 0x30 ≤ n && n ≤ 0x39 else u.digit r

/-- Go `unicode.ToLower`: ASCII fast path, then the case tables. -/
def ToLowerRune (u : UnicodeTables) (r : Char) : Char :=
  let n := r.toNat
  if n ≤ 0x7F then (if 0x41 ≤ n && n ≤ 0x5A then Char.ofNat (n + 32) else r) else u.lower r

/-- Go `strings.ToLower`: every rune mapped through `unicode.ToLower`. -/
def ToLower (u : UnicodeTables) (s : List Char) : List Char :=
  s.map (ToLowerRune u)

/-- Go `unicode.IsSpace`: the `White_Space` property. -/
def IsSpace (r : Char) : Bool :=
  let n := r.toNat
  (0x09 ≤ n && n ≤ 0x0D) || n == 0x20 || n == 0x85 || n == 0xA0 || n == 0x1680
    || (0x2000 ≤ n && n ≤ 0x200A) || n == 0x2028 || n == 0x2029 || n == 0x202F
    || n == 0x205F || n == 0x3000

/-- The regexp class `\s`, which is `[\t\n\f\r ]`. -/
def isPerlSpace (r : Char) : Bool :=
  let n := r.toNat
  n == 0x09 || n == 0x0A || n == 0x0C || n == 0x0D || n == 0x20

/-- The regexp class `\d`, which is `[0-9]`. -/
def isPerlDigit (r : Char) : Bool :=
  let n := r.toNat
  0x30 ≤ n && n ≤ 0x39

/-- Replacement of all leftmost non-overlapping matches.  `m t` is the length
of the match of the pattern anchored at the start of the remaining text `t`, if
there is one; `skip` counts the runes of the current match still to pass over.
None of the patterns of this program matches the empty string. -/
def replaceAllAux (m : List Char → Option Nat) (repl : List Char) :
    Nat → List Char → List Char
  | _, [] => []
  | skip + 1, _ :: cs => replaceAllAux m repl skip cs
  | 0, c :: cs =>
    match m (c :: cs) with
    | some (n + 1) => repl ++ replaceAllAux m repl n cs
    | _ => c :: replaceAllAux m repl 0 cs

/-- Go `Regexp.ReplaceAllString` / `strings.ReplaceAll` for a pattern given by
its anchored matcher. -/
def replaceAllMatches (m : List Char → Option Nat) (repl s : List Char) : List Char :=
  replaceAllAux m repl 0 s

/-- Anchored matcher of a literal string. -/
def matchLiteral (old : List Char) (t : List Char) : Option Nat :=
  if old.isPrefixOf t then some old.length else none

/-- Go `strings.ReplaceAll(s, old, new)` for a non-empty `old`. -/
def ReplaceAll (s old new : List Char) : List Char :=
  replaceAllMatches (matchLiteral old) new s

/-- Anchored matcher of `HTMLTagPattern`, the regexp `<[^>]*>`. -/
def matchHTMLTag : List Char → Option Nat
  | c :: cs =>
    if c = '<' ∧ '>' ∈ cs then some ((cs.takeWhile (fun x => x != '>')).length + 2) else none
  | [] => none

/-- Anchored matcher of `WhitespacePattern`, the regexp `\s+`. -/
def matchWhitespace (t : List Char) : Option Nat :=
  match (t.takeWhile isPerlSpace).length with
  | 0 => none
  | n + 1 => some (n + 1)

/-- A rune of the class `[\s\-_]`. -/
def isFilenameSeparator (r : Char) : Bool :=
  isPerlSpace r || r == '-' || r == '_'

/-- Anchored matcher of `FilenamePattern`, the regexp `[\s\-_]+`. -/
def matchFilenameSeparators (t : List Char) : Option Nat :=
  match (t.takeWhile isFilenameSeparator).length with
  | 0 => none
  | n + 1 => some (n + 1)

/-- The text after a literal, when the text starts with it. -/
def afterLiteral (lit t : List Char) : Option (List Char) :=
  if lit.isPrefixOf t then some (t.drop lit.length) else none

/-- Whether `DurationPattern`, the regexp `\s*Durada:\s*\d+\s*min.*$`, matches
at the start of `t`: `.` matches no newline and `$` only the end of the text. -/
def matchesDuration (t : List Char) : Bool :=
  match afterLiteral "Durada:".toList (t.dropWhile isPerlSpace) with
  | none => false
  | some r =>
    let r := r.dropWhile isPerlSpace
    if (r.takeWhile isPerlDigit).isEmpty then false
    else
      match afterLiteral "min".toList ((r.dropWhile isPerlDigit).dropWhile isPerlSpace) with
      | none => false
      | some rest => !(rest.contains (Char.ofNat 10))

/-- Anchored matcher of `DurationPattern`: a match runs to the end of the
text. -/
def matchDuration (t : List Char) : Option Nat :=
  if matchesDuration t then some t.length else none

/-- Go `strings.TrimSpace`. -/
def TrimSpace (s : List Char) : List Char :=
  (s.dropWhile IsSpace).rdropWhile IsSpace

/-- Go `strings.Trim(s, "-")`. -/
def TrimHyphens (s : List Char) : List Char :=
  (s.dropWhile (fun c => c == '-')).rdropWhile (fun c => c == '-')

/-- Go `strings.TrimSuffix`. -/
def TrimSuffix (s suffix : List Char) : List Char :=
  if suffix.isSuffixOf s then s.take (s.length - suffix.length) else s

/-- Go `strings.HasPrefix`. -/
def HasPrefix (s pre : List Char) : Bool :=
  pre.isPrefixOf s

/-- Go `fmt.Sprintf("%d", n)`. -/
def fmtD : Int → List Char
  | Int.ofNat n => (Nat.repr n).toList
  | Int.negSucc n => '-' :: (Nat.repr (n + 1)).toList

/-- The value of a string of decimal digits. -/
def decimalValue (digits : List Char) : Nat :=
  digits.foldl (fun n c => 10 * n + (c.toNat - 0x30)) 0

/-- Go `strconv.Atoi` (and `strconv.ParseInt(s, 10, 64)`): an optional sign and
decimal digits, within the range of a 64-bit `int`; `none` is an error. -/
def Atoi (s : List Char) : Option Int :=
  let digits :=
    match s with
    | c :: cs => if c = '+' ∨ c = '-' then cs else c :: cs
    | [] => []
  if digits.isEmpty || !digits.all isPerlDigit then none
  else
    let n : Int := if s.head? = some '-' then -(decimalValue digits : Int) else decimalValue digits
    if -2 ^ 63 ≤ n ∧ n < 2 ^ 63 then some n else none

/-- The `SkipSpace` of Go's `fmt` scanner outside `Sscanln`: white space is
passed over, a newline is an error (`none`). -/
def scanSkipSpace : List Char → Option (List Char)
  | [] => some []
  | c :: cs =>
    if c = Char.ofNat 10 then none
    else if IsSpace c then scanSkipSpace cs
    else some (c :: cs)

/-- Go `fmt.Sscanf(s, "%d", &num)`: the scanned number, `none` on error.
Leading white space is skipped, then an optional sign and at least one decimal
digit are read and parsed as a 64-bit integer; what follows is not read. -/
def SscanfD (s : List Char) : Option Int :=
  match scanSkipSpace s with
  | none => none
  | some r =>
    let sign : List Char :=
      match r with
      | c :: _ => if c = '+' ∨ c = '-' then [c] else []
      | [] => []
    let digits := (r.drop sign.length).takeWhile isPerlDigit
    if digits.isEmpty then none else Atoi (sign ++ digits)

/-! ## Collector (`internal/collector/collector.go`) -/

/-- The entity loop of the cleaners, `for entity, replacement := range
constants.HTMLEntities`, run in the iteration order `order`. -/
def decodeEntities (order : List (List Char × List Char)) (s : List Char) : List Char :=
  order.foldl (fun cleaned e => ReplaceAll cleaned e.1 e.2) s

/-- The function `cleanTitle`; `order` is the order in which the `range` loop
visits the entity map in this call. -/
def cleanTitle (order : List (List Char × List Char)) (title : List Char) : List Char :=
  let cleaned := replaceAllMatches matchHTMLTag [] title
  let cleaned := decodeEntities order cleaned
  let cleaned := replaceAllMatches matchWhitespace [' '] cleaned
  let cleaned := TrimSpace cleaned
  let cleaned := replaceAllMatches matchDuration [] cleaned
  cleaned

/-- The function `cleanDescription`; `order` as in `cleanTitle`. -/
def cleanDescription (order : List (List Char × List Char)) (description : List Char) :
    List Char :=
  let cleaned := replaceAllMatches matchHTMLTag [] description
  let cleaned := decodeEntities order cleaned
  let cleaned := replaceAllMatches matchWhitespace [' '] cleaned
  let cleaned := TrimSpace cleaned
  let cleaned := constants.TextSuffixes.foldl TrimSuffix cleaned
  let cleaned := TrimSpace cleaned
  cleaned

/-- The rune loop of `createSafeFilename`: a rune that is not a letter, a
digit, a space, a hyphen, an underscore or a dot is written as a hyphen. -/
def keepSafeRune (u : UnicodeTables) (r : Char) : Char :=
  if IsLetter u r || IsDigit u r || r == ' ' || r == '-' || r == '_' || r == '.' then r
  else '-'

/-- Lines 245-268 of `createSafeFilename`: lower-casing, replacement of the
problematic characters, the rune filter, separator collapsing and trimming. -/
def sanitise (u : UnicodeTables) (title : List Char) : List Char :=
  let filename := title
  let filename := ToLower u filename
  let filename := constants.ProblematicChars.foldl
    (fun filename char => ReplaceAll filename char ['-']) filename
  let filename := filename.map (keepSafeRune u)
  let filename := replaceAllMatches matchFilenameSeparators ['-'] filename
  let filename := TrimHyphens filename
  filename

/-- The word loop of `createSafeFilename`, from the state `(truncated,
currentLength)` over the remaining `words`. -/
def truncateWords : List (List Char) → List Char → Nat → List Char
  | [], truncated, _ => truncated
  | word :: words, truncated, currentLength =>
    if currentLength + len word + 1 > constants.MaxFilenameLen then truncated
    else if len truncated > 0 then
      truncateWords words (truncated ++ ['-'] ++ word) (currentLength + 1 + len word)
    else
      truncateWords words (truncated ++ word) (currentLength + len word)

/-- Lines 270-295 of `createSafeFilename`: the length cap, first at a word
boundary, then by slicing the bytes. -/
def limitLength (filename : List Char) : List UInt8 :=
  if len filename > constants.MaxFilenameLen then
    let words := filename.splitOn '-'
    let truncated := truncateWords words [] 0
    let filename := utf8 truncated
    if filename.length > constants.MaxFilenameLen then
      filename.take constants.MaxFilenameLen
    else filename
  else utf8 filename

/-- The function `createSafeFilename`; `now` is `time.Now().Unix()` at the call. -/
def createSafeFilename (u : UnicodeTables) (now : Int) (title : List Char) : List UInt8 :=
  let filename := limitLength (sanitise u title)
  if filename = [] ∨ filename = utf8 ['-'] then
    utf8 ("episode-".toList ++ fmtD now)
  else filename

/-- An element of the `imatges` and `audios` arrays of an API item; only its
`text` field is read. -/
structure MediaRef where
  Text : List Char

/-- An element of `Resposta.Items.Item` of `CCMAListResponse`. -/
structure ListItem where
  ID : Int
  Titol : List Char
  Entradeta : List Char
  DataPublicacio : List Char
  Durada : List Char
  Imatges : List MediaRef
  Audios : List MediaRef

/-- The struct `CCMAListResponse`, without the fields that are only logged:
`Status` is `Resposta.Status`, `Item` is `Resposta.Items.Item` and
`TotalPagines` is `Resposta.Paginacio.TotalPagines`. -/
structure CCMAListResponse where
  Status : List Char
  Item : List ListItem
  TotalPagines : Int

/-- The struct `CCMAAudioResponse`, reduced to the fields that are read:
`Resposta.Status` and `Resposta.Item.Audios`. -/
structure CCMAAudioResponse where
  Status : List Char
  Audios : List MediaRef

/-- The outcome of `c.client.Get(apiURL)` followed by JSON decoding of the
body into `β`: a transport error, or a response with its status code and its
body, `none` when the body does not decode. -/
inductive HTTPResult (β : Type) where
  | transportError : HTTPResult β
  | response (statusCode : Nat) (body : Option β) : HTTPResult β

/-- The struct `Episode`. -/
structure Episode where
  Title : List Char
  Description : List Char
  Duration : List Char
  Date : List Char
  Link : List Char
  AudioURL : List Char
  Image : List Char
  Filename : List UInt8
  ImageFilename : List UInt8
  JSONFile : List UInt8

/-- What the processing of one listing item reads from outside the item: the
iteration orders of the two entity loops, the clock at the three calls of
`createSafeFilename`, and the outcome of the request of `extractAudioURL`. -/
structure ItemEnv where
  titleOrder : List (List Char × List Char)
  descriptionOrder : List (List Char × List Char)
  nowFilename : Int
  nowJSONFile : Int
  nowImageFilename : Int
  audioFetch : HTTPResult CCMAAudioResponse

/-- The function `extractAudioURL` on the outcome of its request; `none` is an
error return. -/
def extractAudioURL (fetch : HTTPResult CCMAAudioResponse) : Option (List Char) :=
  match fetch with
  | .transportError => none
  | .response statusCode body =>
    if statusCode ≠ 200 then none
    else
      match body with
      | none => none
      | some audioResp =>
        if audioResp.Status ≠ constants.APIStatusOK then none
        else
          match audioResp.Audios with
          | [] => none
          | audioFile :: _ =>
            if audioFile.Text = [] then none
            else some (constants.CCMAMediaBaseURL ++ "/".toList ++ audioFile.Text)

/-- The body of the item loop of `ScrapeEpisodesWithLimit` (lines 103-159). -/
def buildEpisode (u : UnicodeTables) (env : ItemEnv) (item : ListItem) : Episode :=
  let episode : Episode :=
    { Title := cleanTitle env.titleOrder item.Titol
      Description := cleanDescription env.descriptionOrder item.Entradeta
      Duration := item.Durada
      Date := item.DataPublicacio
      Link := constants.BaseURL ++ constants.EpisodeURLPattern ++ "/".toList ++ fmtD item.ID
        ++ "/".toList
      AudioURL := []
      Image := []
      Filename := []
      ImageFilename := []
      JSONFile := [] }
  let episode := { episode with
    Filename := createSafeFilename u env.nowFilename episode.Title ++ utf8 constants.MP3Extension
    JSONFile :=
      createSafeFilename u env.nowJSONFile episode.Title ++ utf8 constants.JSONExtension }
  let episode :=
    match item.Imatges with
    | img :: _ =>
      if img.Text ≠ [] then
        let imageText := img.Text
        let episode := { episode with
          Image :=
            if HasPrefix imageText "http://".toList || HasPrefix imageText "https://".toList then
              imageText
            else if HasPrefix imageText "/".toList then
              "https://img.3cat.cat".toList ++ imageText
            else
              constants.CCMAMediaBaseURL ++ "/".toList ++ imageText }
        let imageExt :=
          if ".png".toList <:+: ToLower u episode.Image then constants.PNGExtension
          else constants.JPGExtension
        { episode with
          ImageFilename :=
            createSafeFilename u env.nowImageFilename episode.Title ++ utf8 imageExt }
      else episode
    | [] => episode
  let listedAudio : Option (List Char) :=
    match item.Audios with
    | audio :: _ => if audio.Text ≠ [] then some audio.Text else none
    | [] => none
  match listedAudio with
  | some audioText =>
    if HasPrefix audioText "http://".toList || HasPrefix audioText "https://".toList then
      { episode with AudioURL := audioText }
    else
      { episode with AudioURL := constants.CCMAMediaBaseURL ++ "/".toList ++ audioText }
  | none =>
    match extractAudioURL env.audioFetch with
    | none =>
      { episode with
        AudioURL :=
          constants.FallbackAudioURL ++ "-".toList ++ fmtD item.ID ++ constants.MP3Extension }
    | some audioURL => { episode with AudioURL := audioURL }

/-- The item loop over one page; `env i` is the environment of the item at
index `i` of the page. -/
def processItems (u : UnicodeTables) (env : Nat → ItemEnv) : Nat → List ListItem → List Episode
  | _, [] => []
  | i, item :: items => buildEpisode u (env i) item :: processItems u env (i + 1) items

/-- The world a scrape runs in: `listing n page` is the outcome of the listing
request for `page` made after `n` earlier listing requests, and `item n i` is
the environment of item `i` of the page that request returned. -/
structure World where
  listing : Nat → Nat → HTTPResult CCMAListResponse
  item : Nat → Nat → ItemEnv

/-- The errors `ScrapeEpisodesWithLimit` returns. -/
inductive ScrapeError where
  | fetchFailed (pageNum : Nat)
  | httpStatus (statusCode : Nat) (pageNum : Nat)
  | parseFailed (pageNum : Nat)
  | apiStatus (status : List Char) (pageNum : Nat)

/-- How a run stands: it has returned the pair `(episodes, err)`, or its loop
is still going round. -/
inductive Outcome where
  | returned (episodes : List Episode) (err : Option ScrapeError)
  | running

/-- A run of `ScrapeEpisodesWithLimit`: the listing pages requested, in order,
and the outcome. -/
structure Run where
  requested : List Nat
  outcome : Outcome

/-- The `for` loop of `ScrapeEpisodesWithLimit`, for at most `fuel` rounds,
from the state `(pageNum, allEpisodes)` with `requested` the pages requested
so far. -/
def scrapeLoop (u : UnicodeTables) (w : World) (maxPages : Int) :
    Nat → Nat → List Episode → List Nat → Run
  | 0, _, _, requested => ⟨requested, .running⟩
  | fuel + 1, pageNum, allEpisodes, requested =>
    match w.listing requested.length pageNum with
    | .transportError =>
      ⟨requested ++ [pageNum], .returned [] (some (.fetchFailed pageNum))⟩
    | .response statusCode body =>
      if statusCode ≠ 200 then
        ⟨requested ++ [pageNum], .returned [] (some (.httpStatus statusCode pageNum))⟩
      else
        match body with
        | none => ⟨requested ++ [pageNum], .returned [] (some (.parseFailed pageNum))⟩
        | some listResp =>
          if listResp.Status ≠ constants.APIStatusOK then
            ⟨requested ++ [pageNum],
              .returned [] (some (.apiStatus listResp.Status pageNum))⟩
          else
            let allEpisodes :=
              allEpisodes ++ processItems u (w.item requested.length) 0 listResp.Item
            let pageEpisodes := listResp.Item.length
            if (pageNum : Int) ≥ listResp.TotalPagines then
              ⟨requested ++ [pageNum], .returned allEpisodes none⟩
            else if maxPages > 0 ∧ (pageNum : Int) ≥ maxPages then
              ⟨requested ++ [pageNum], .returned allEpisodes none⟩
            else if pageEpisodes = 0 then
              ⟨requested ++ [pageNum], .returned allEpisodes none⟩
            else
              scrapeLoop u w maxPages fuel (pageNum + 1) allEpisodes (requested ++ [pageNum])

/-- The function `ScrapeEpisodesWithLimit`, its loop run for at most `fuel`
rounds. -/
def ScrapeEpisodesWithLimit (u : UnicodeTables) (w : World) (maxPages : Int) (fuel : Nat) :
    Run :=
  scrapeLoop u w maxPages fuel 1 [] []

/-! ## Storage (`internal/storage/storage.go`) -/

/-- The files of the machine: the bytes of the file at each path, `none` where
`os.Stat` finds nothing. -/
def FileSystem : Type := List UInt8 → Option (List UInt8)

/-- The file system with `data` at `path`. -/
def FileSystem.write (fs : FileSystem) (path : List UInt8) (data : List UInt8) : FileSystem :=
  fun p => if p = path then some data else fs p

/-- The file system without the file at `path`. -/
def FileSystem.remove (fs : FileSystem) (path : List UInt8) : FileSystem :=
  fun p => if p = path then none else fs p

/-- The struct `Storage`. -/
structure Storage where
  dataDir : List UInt8

/-- The outcome of `client.Get(url)` and of the `io.Copy` of its body: a
transport error, or a response with its status code, the bytes `io.Copy` wrote
and whether it returned an error. -/
inductive Download where
  | transportError
  | response (statusCode : Nat) (copied : List UInt8) (copyFails : Bool)

/-- What a storage operation meets outside the program during one call: the
JSON encoding of an episode (`none` when `json.MarshalIndent` fails), the
answer of the network to a URL, and which file operations fail; `writeFile` is
`none` when `os.WriteFile` succeeds and else what it leaves at the path. -/
structure Host where
  MarshalIndent : Episode → Option (List UInt8)
  Get : List Char → Download
  writeFile : Option (Option (List UInt8))
  removeStaleFails : Bool
  createFails : Bool
  renameFails : Bool
  removeTempFails : Bool

/-- The errors the storage operations return. -/
inductive StorageError where
  | marshalFailed
  | writeFailed
  | noAudioURL
  | downloadFailed
  | badStatus (statusCode : Nat)
  | createTempFailed
  | copyFailed
  | tooSmall (size : Nat)
  | renameFailed
deriving DecidableEq

/-- The effect of a storage operation: the file system it leaves, the URLs it
requested from the network, and the error it returns (`none` for `nil`). -/
structure Effect where
  fs : FileSystem
  requests : List (List Char)
  err : Option StorageError

/-- The function `SaveEpisode`; `Join` is `filepath.Join`. -/
def SaveEpisode (Join : List UInt8 → List UInt8 → List UInt8) (host : Host) (s : Storage)
    (fs : FileSystem) (episode : Episode) : Effect :=
  let jsonPath := Join s.dataDir episode.JSONFile
  let present : Bool :=
    match fs jsonPath with
    | some data => data.length > 0
    | none => false
  if present then ⟨fs, [], none⟩
  else
    match host.MarshalIndent episode with
    | none => ⟨fs, [], some .marshalFailed⟩
    | some data =>
      match host.writeFile with
      | some left =>
        ⟨fun p => if p = jsonPath then left else fs p, [], some .writeFailed⟩
      | none => ⟨fs.write jsonPath data, [], none⟩

/-- The file system after `os.Remove(tempPath)`, which may fail. -/
def removeTemp (host : Host) (fs : FileSystem) (tempPath : List UInt8) : FileSystem :=
  if host.removeTempFails then fs else fs.remove tempPath

/-- Lines 77-145 of `DownloadAudio` and 176-244 of `DownloadImage`, which
differ in the size `minSize` a download must reach: the request, the copy to
the temporary file, the size check and the rename. -/
def fetchFile (host : Host) (fs : FileSystem) (url : List Char) (path : List UInt8)
    (minSize : Nat) : Effect :=
  match host.Get url with
  | .transportError => ⟨fs, [url], some .downloadFailed⟩
  | .response statusCode copied copyFails =>
    if statusCode ≠ 200 then ⟨fs, [url], some (.badStatus statusCode)⟩
    else
      let tempPath := path ++ utf8 constants.TempSuffix
      if host.createFails then ⟨fs, [url], some .createTempFailed⟩
      else
        let fs := fs.write tempPath copied
        let size := copied.length
        if copyFails then ⟨removeTemp host fs tempPath, [url], some .copyFailed⟩
        else if size < minSize then ⟨removeTemp host fs tempPath, [url], some (.tooSmall size)⟩
        else if host.renameFails then ⟨removeTemp host fs tempPath, [url], some .renameFailed⟩
        else ⟨(fs.write path copied).remove tempPath, [url], none⟩

/-- Lines 63-75 of `DownloadAudio` and 162-174 of `DownloadImage`: `none` when
a file larger than `threshold` is at `path`, and else the file system after the
removal of the file found there, if any. -/
def checkExisting (host : Host) (fs : FileSystem) (path : List UInt8) (threshold : Nat) :
    Option FileSystem :=
  match fs path with
  | some data =>
    if data.length > threshold then none
    else if host.removeStaleFails then some fs
    else some (fs.remove path)
  | none => some fs

/-- The function `DownloadAudio`. -/
def DownloadAudio (Join : List UInt8 → List UInt8 → List UInt8) (host : Host) (s : Storage)
    (fs : FileSystem) (episode : Episode) : Effect :=
  if episode.AudioURL = [] then ⟨fs, [], some .noAudioURL⟩
  else if "failed-audio".toList <:+: episode.AudioURL then ⟨fs, [], none⟩
  else
    let audioPath := Join s.dataDir episode.Filename
    match checkExisting host fs audioPath constants.MinAudioFileSize with
    | none => ⟨fs, [], none⟩
    | some fs => fetchFile host fs episode.AudioURL audioPath constants.MinDownloadSize

/-- The function `DownloadImage`. -/
def DownloadImage (Join : List UInt8 → List UInt8 → List UInt8) (host : Host) (s : Storage)
    (fs : FileSystem) (episode : Episode) : Effect :=
  if episode.Image = [] ∨ episode.ImageFilename = [] then ⟨fs, [], none⟩
  else if "failed-image".toList <:+: episode.Image then ⟨fs, [], none⟩
  else
    let imagePath := Join s.dataDir episode.ImageFilename
    match checkExisting host fs imagePath constants.MinImageFileSize with
    | none => ⟨fs, [], none⟩
    | some fs => fetchFile host fs episode.Image imagePath constants.MinImageFileSize

/-- The first submatch of `ChapterPattern`, the regexp `Capítol (\d+)`, at its
leftmost match in `s`: Go `re.FindStringSubmatch(s)[1]`. -/
def findChapter : List Char → Option (List Char)
  | [] => none
  | c :: cs =>
    match afterLiteral "Capítol ".toList (c :: cs) with
    | some r =>
      if (r.takeWhile isPerlDigit).isEmpty then findChapter cs
      else some (r.takeWhile isPerlDigit)
    | none => findChapter cs

/-- The first submatch of `EpisodeNumPattern`, the regexp `(\d+)`, at its
leftmost match in `s`: the first run of decimal digits. -/
def findDigits (s : List Char) : Option (List Char) :=
  let r := s.dropWhile (fun c => !isPerlDigit c)
  if r.isEmpty then none else some (r.takeWhile isPerlDigit)

/-- The function `getEpisodeNumber`; `none` is the error "cannot extract
episode number". -/
def getEpisodeNumber (episode : Episode) : Option Int :=
  let fromTitle : Option Int :=
    match SscanfD episode.Title with
    | some num => if num > 0 then some num else none
    | none => none
  match fromTitle with
  | some num => some num
  | none =>
    let fromDescription : Option Int :=
      match findChapter episode.Description with
      | some m => Atoi m
      | none => none
    match fromDescription with
    | some num => some num
    | none =>
      match findDigits episode.Title with
      | some m => Atoi m
      | none => none

/-- The `less` function `LoadEpisodes` gives to `sort.Slice`. -/
def episodeLess (a b : Episode) : Bool :=
  match getEpisodeNumber a, getEpisodeNumber b with
  | none, _ => false
  | some _, none => true
  | some numI, some numJ => numI < numJ

/-- A path `filepath.Walk` visits: whether the walk reports an error for it,
whether it is a directory, and what `os.ReadFile` returns for it (`none` on
error). -/
structure WalkEntry where
  path : List UInt8
  walkErr : Bool
  isDir : Bool
  readFile : Option (List UInt8)

/-- The walk of `LoadEpisodes` over the visited paths, in the order of the
walk: the episodes appended, `none` when the walk stops with an error;
`Unmarshal` is `json.Unmarshal` into an `Episode`. -/
def walkEpisodes (Unmarshal : List UInt8 → Option Episode) :
    List WalkEntry → Option (List Episode)
  | [] => some []
  | entry :: entries =>
    if entry.walkErr then none
    else if entry.isDir ∨ ¬ (utf8 constants.JSONExtension).isSuffixOf entry.path then
      walkEpisodes Unmarshal entries
    else
      match entry.readFile with
      | none => walkEpisodes Unmarshal entries
      | some data =>
        match Unmarshal data with
        | none => walkEpisodes Unmarshal entries
        | some episode => (walkEpisodes Unmarshal entries).map (fun episodes => episode :: episodes)

/-- The function `LoadEpisodes`; `sortSlice less` is `sort.Slice` with the
comparison `less`, and `none` is the error return. -/
def LoadEpisodes (sortSlice : (Episode → Episode → Bool) → List Episode → List Episode)
    (Unmarshal : List UInt8 → Option Episode) (entries : List WalkEntry) :
    Option (List Episode) :=
  match walkEpisodes Unmarshal entries with
  | none => none
  | some episodes => some (sortSlice episodeLess episodes)

/-! ## Predicates of the statements -/

/-- A decimal digit rune. -/
def isDecimalDigit (c : Char) : Prop := 0x30 ≤ c.toNat ∧ c.toNat ≤ 0x39

/-- The runes a filename stem may consist of. -/
def StemRune (u : UnicodeTables) (c : Char) : Prop :=
  (IsLetter u c = true ∨ IsDigit u c = true ∨ c = '-' ∨ c = '.') ∧
    [c] ∉ constants.ProblematicChars ∧ c ≠ ' ' ∧ c ≠ '_'

/-- The length cap of `createSafeFilename` on runes: the word loop when the
name is too long. -/
def limitRunes (filename : List Char) : List Char :=
  if len filename > constants.MaxFilenameLen then truncateWords (filename.splitOn '-') [] 0
  else filename

/-- A rune of the unsafe punctuation `/ \ : * ? " < > |`, a space, a hyphen or
an underscore. -/
def isSeparatorOrUnsafe (c : Char) : Prop :=
  [c] ∈ constants.ProblematicChars ∨ c = ' ' ∨ c = '-' ∨ c = '_'

/-- The text has a substring that matches `HTMLTagPattern`: the pattern matches
at the start of one of its suffixes. -/
def ContainsTag (s : List Char) : Prop :=
  ∃ p t, s = p ++ t ∧ matchHTMLTag t ≠ none

/-- Whitespace-collapsed text: every rune of the class `\s` is a space and is
not followed by another rune of the class. -/
def Collapsed : List Char → Prop
  | [] => True
  | c :: cs =>
    (isPerlSpace c = true → c = ' ' ∧ ∀ x ∈ cs.head?, isPerlSpace x = false) ∧ Collapsed cs

/-- A failed listing request: a transport error, an HTTP status other than 200,
an undecodable body, or a decoded status field other than `OK`. -/
def pageFailed : HTTPResult CCMAListResponse → Prop
  | .transportError => True
  | .response statusCode body =>
    statusCode ≠ 200 ∨ body = none ∨ ∃ r, body = some r ∧ r.Status ≠ constants.APIStatusOK

/-- What `sort.Slice` guarantees for the comparison of `LoadEpisodes`: the
result is a rearrangement of the slice in which no element is less than one
before it. -/
def SortsEpisodes (sortSlice : (Episode → Episode → Bool) → List Episode → List Episode) :
    Prop :=
  ∀ episodes, (sortSlice episodeLess episodes).Perm episodes ∧
    (sortSlice episodeLess episodes).Pairwise (fun a b => episodeLess b a = false)

/-- The spellings from which the entity loop can write `<` or `>`: the two
entities and the same with the ampersand escaped once more. -/
def escapedAngles : List (List Char) :=
  ["&lt;".toList, "&gt;".toList, "&amp;lt;".toList, "&amp;gt;".toList]

/-! ## Example items and listing APIs -/

/-- An item whose only image is `jpg/6/2/1472799754526.jpg`. -/
def exampleImageItem : ListItem :=
  { ID := 1472799, Titol := "1. Els almogàvers".toList, Entradeta := [],
    DataPublicacio := [], Durada := [],
    Imatges := [⟨"jpg/6/2/1472799754526.jpg".toList⟩], Audios := [] }

/-- An item environment: the declared entity order, one clock reading, and a
failed single-item request. -/
def exampleItemEnv : ItemEnv :=
  { titleOrder := constants.HTMLEntities, descriptionOrder := constants.HTMLEntities,
    nowFilename := 1700000000, nowJSONFile := 1700000000, nowImageFilename := 1700000000,
    audioFetch := .transportError }

/-- A listing API that answers every request with one item and reports 1000
pages. -/
def endlessWorld : World :=
  { listing := fun _ _ => .response 200 (some ⟨constants.APIStatusOK, [exampleImageItem], 1000⟩)
    item := fun _ _ => exampleItemEnv }

/-- A listing API that reports 2 pages: page 1 holds one item, page 2 none. -/
def twoPageWorld : World :=
  { listing := fun _ page =>
      if page = 1 then .response 200 (some ⟨constants.APIStatusOK, [exampleImageItem], 2⟩)
      else .response 200 (some ⟨constants.APIStatusOK, [], 2⟩)
    item := fun _ _ => exampleItemEnv }

/-- A listing API that reports 3 pages, answers page 1 with one item and every
other page with HTTP status 500. -/
def failingWorld : World :=
  { listing := fun _ page =>
      if page = 1 then .response 200 (some ⟨constants.APIStatusOK, [exampleImageItem], 3⟩)
      else .response 500 none
    item := fun _ _ => exampleItemEnv }

/-! ## Example storage, hosts and walks -/

/-- A `filepath.Join` for the examples: the directory, a slash, the name. -/
def exampleJoin (dir name : List UInt8) : List UInt8 :=
  dir ++ utf8 "/".toList ++ name

/-- The storage of the default data directory `capitols`. -/
def exampleStorage : Storage := ⟨utf8 "capitols".toList⟩

/-- An episode with an audio and an image URL. -/
def exampleEpisode : Episode :=
  { Title := "1. Els almogàvers".toList
    Description := "Capítol 1".toList
    Duration := "55".toList
    Date := "02/07/2024".toList
    Link := "https://www.3cat.cat/3cat/en-guardia/audio/1472799/".toList
    AudioURL := "https://img.3cat.cat/multimedia/mp3/8/1/1719914131118.mp3".toList
    Image := "https://img.3cat.cat/multimedia/jpg/6/2/1472799754526.jpg".toList
    Filename := utf8 "1.-els-almogàvers.mp3".toList
    ImageFilename := utf8 "1.-els-almogàvers.jpg".toList
    JSONFile := utf8 "1.-els-almogàvers.json".toList }

/-- A host on which nothing fails: every URL answers 200 with `body`, and the
JSON encoding of every episode is `{}`. -/
def exampleHost (body : List UInt8) : Host :=
  { MarshalIndent := fun _ => some (utf8 "{}".toList)
    Get := fun _ => .response 200 body false
    writeFile := none
    removeStaleFails := false
    createFails := false
    renameFails := false
    removeTempFails := false }

/-- A host whose network is down. -/
def offlineHost : Host :=
  { exampleHost [] with Get := fun _ => .transportError }

/-- The file system that holds `data` at `path` and nothing else. -/
def singleFile (path data : List UInt8) : FileSystem :=
  fun p => if p = path then some data else none

/-- The file system with no file. -/
def emptyFS : FileSystem := fun _ => none

/-- An insertion sort as `sort.Slice` for the examples. -/
def exampleSort (less : Episode → Episode → Bool) (episodes : List Episode) : List Episode :=
  List.insertionSort (fun a b => less b a = false) episodes

/-- A `json.Unmarshal` for the examples: a file of one byte `k > 0` decodes to
the episode titled `k. Capítol`, a file of the two bytes `0 0` to an episode
titled `Especial`, and nothing else decodes. -/
def exampleUnmarshal : List UInt8 → Option Episode
  | [k] =>
    if k = 0 then none
    else some { exampleEpisode with
      Title := fmtD k.toNat ++ ". Capítol".toList, Description := [] }
  | [0, 0] => some { exampleEpisode with Title := "Especial".toList, Description := [] }
  | _ => none

/-- A walk over a data directory: the directory itself, the metadata of the
episodes 3, an unnumbered special, 1 and 2, an audio file and an unreadable
metadata file. -/
def exampleWalk : List WalkEntry :=
  [ ⟨utf8 "capitols".toList, false, true, none⟩,
    ⟨utf8 "capitols/3.json".toList, false, false, some [3]⟩,
    ⟨utf8 "capitols/especial.json".toList, false, false, some [0, 0]⟩,
    ⟨utf8 "capitols/1.json".toList, false, false, some [1]⟩,
    ⟨utf8 "capitols/1.mp3".toList, false, false, some [1]⟩,
    ⟨utf8 "capitols/x.json".toList, false, false, none⟩,
    ⟨utf8 "capitols/2.json".toList, false, false, some [2]⟩ ]

/-! # Verified properties -/

/-! ## Go strings and formatting -/

theorem utf8_length (s : List Char) : (utf8 s).length = len s := by
  induction s with
  | nil => rfl
  | cons c cs ih =>
    simp only [utf8, len, List.flatMap_cons, List.length_append, List.map_cons, List.sum_cons,
      String.length_utf8EncodeChar] at ih ⊢
    omega

theorem len_append (s t : List Char) : len (s ++ t) = len s + len t := by
  simp [len]

theorem len_cons (c : Char) (s : List Char) : len (c :: s) = c.utf8Size + len s := by
  simp [len]

theorem utf8_append (s t : List Char) : utf8 (s ++ t) = utf8 s ++ utf8 t := by
  simp [utf8]

theorem digitChar_isDecimalDigit : ∀ k, k < 10 → isDecimalDigit (Nat.digitChar k) := by
  unfold isDecimalDigit
  decide

theorem toDigitsCore_isDecimalDigit (fuel : Nat) : ∀ (n : Nat) (ds : List Char),
    (∀ c ∈ ds, isDecimalDigit c) → ∀ c ∈ Nat.toDigitsCore 10 fuel n ds, isDecimalDigit c := by
  induction fuel with
  | zero => intro n ds h; simpa [Nat.toDigitsCore] using h
  | succ f ih =>
    intro n ds h
    have hd : isDecimalDigit (Nat.digitChar (n % 10)) :=
      digitChar_isDecimalDigit _ (Nat.mod_lt _ (by decide))
    have h' : ∀ c ∈ Nat.digitChar (n % 10) :: ds, isDecimalDigit c := by
      intro c hc
      rcases List.mem_cons.1 hc with rfl | hc
      · exact hd
      · exact h c hc
    simp only [Nat.toDigitsCore]
    split
    · exact h'
    · exact ih _ _ h'

theorem repr_isDecimalDigit (n : Nat) : ∀ c ∈ (Nat.repr n).toList, isDecimalDigit c := by
  simp only [Nat.repr, Nat.toDigits]
  exact toDigitsCore_isDecimalDigit _ _ _ (by simp)

theorem repr_toList_length (n : Nat) (h : n < 10 ^ 19) : (Nat.repr n).toList.length ≤ 19 :=
  Nat.repr_length n 19 (by decide) h



theorem len_of_ascii (s : List Char) (h : ∀ c ∈ s, c.toNat ≤ 0x7F) : len s = s.length := by
  induction s with
  | nil => rfl
  | cons c cs ih =>
    have hc : c.toNat ≤ 0x7F := h c (List.mem_cons_self _ _)
    have h1 : c.utf8Size = 1 := by
      have h2 : c.val ≤ 127 := by
        rw [UInt32.le_def]; exact hc
      unfold Char.utf8Size
      exact if_pos h2
    rw [len_cons, h1, ih (fun x hx => h x (List.mem_cons_of_mem _ hx))]
    simp; omega

/-! ## `createSafeFilename` -/

theorem truncateWords_len (words : List (List Char)) : ∀ (truncated : List Char) (cur : Nat),
    len truncated = cur → cur ≤ constants.MaxFilenameLen →
    len (truncateWords words truncated cur) ≤ constants.MaxFilenameLen := by
  induction words with
  | nil => intro t cur h1 h2; simpa [truncateWords, h1] using h2
  | cons w ws ih =>
    intro t cur h1 h2
    simp only [truncateWords]
    split
    · omega
    · split
      · apply ih
        · have hy : len ['-'] = 1 := by decide
          rw [len_append, len_append, h1, hy]
        · omega
      · apply ih
        · simp [len_append, h1]
        · omega

theorem limitLength_length (filename : List Char) :
    (limitLength filename).length ≤ constants.MaxFilenameLen := by
  unfold limitLength
  split
  · simp only
    split
    · simp
    · omega
  · rw [utf8_length]; omega

theorem fmtD_ascii (now : Int) : ∀ c ∈ fmtD now, c.toNat ≤ 0x7F := by
  intro c hc
  cases now with
  | ofNat n =>
    have := repr_isDecimalDigit n c hc
    unfold isDecimalDigit at this; omega
  | negSucc n =>
    rcases List.mem_cons.1 hc with rfl | hc
    · decide
    · have := repr_isDecimalDigit _ c hc
      unfold isDecimalDigit at this; omega

theorem fmtD_length (now : Int) (h : -2 ^ 63 ≤ now ∧ now < 2 ^ 63) : (fmtD now).length ≤ 20 := by
  cases now with
  | ofNat n =>
    have : n < 10 ^ 19 := by
      have : (n : Int) < 2 ^ 63 := h.2
      omega
    have := repr_toList_length n this
    simp only [fmtD]; omega
  | negSucc n =>
    have : n + 1 < 10 ^ 19 := by
      have h1 := h.1
      simp only [Int.negSucc_eq] at h1
      omega
    have := repr_toList_length (n + 1) this
    simp only [fmtD, List.length_cons]; omega

theorem placeholder_length (now : Int) (h : -2 ^ 63 ≤ now ∧ now < 2 ^ 63) :
    (utf8 ("episode-".toList ++ fmtD now)).length ≤ 28 := by
  rw [utf8_length, len_append, len_of_ascii _ (fmtD_ascii now)]
  have := fmtD_length now h
  have : len "episode-".toList = 8 := by decide
  omega

/-- C1: for every title, and every clock reading in the `int64` range, the
filename stem returned by `createSafeFilename` is at most
`constants.MaxFilenameLen` (120) bytes long, whichever branch produces it. -/
theorem createSafeFilename_length_le (u : UnicodeTables) (now : Int) (title : List Char)
    (hnow : -2 ^ 63 ≤ now ∧ now < 2 ^ 63) :
    (createSafeFilename u now title).length ≤ constants.MaxFilenameLen := by
  unfold createSafeFilename
  simp only
  split
  · have := placeholder_length now hnow
    simp only [constants.MaxFilenameLen]; omega
  · exact limitLength_length _

theorem createSafeFilename_length_le_witness :
    (-2 ^ 63 ≤ (1700000000 : Int) ∧ (1700000000 : Int) < 2 ^ 63) ∧
      (createSafeFilename UnicodeTables.latin1 1700000000
        "La batalla de Muret".toList).length ≤ constants.MaxFilenameLen :=
  ⟨by decide, createSafeFilename_length_le _ _ _ (by decide)⟩

theorem replaceAllAux_forall (m : List Char → Option Nat) (repl : List Char)
    (P Q : Char → Prop) (hrepl : ∀ x ∈ repl, P x)
    (hkeep : ∀ c cs, Q c → (∀ n, m (c :: cs) ≠ some (n + 1)) → P c) :
    ∀ (s : List Char) (k : Nat), (∀ c ∈ s, Q c) → ∀ x ∈ replaceAllAux m repl k s, P x := by
  intro s
  induction s with
  | nil => intro k _ x hx; simp [replaceAllAux] at hx
  | cons c cs ih =>
    intro k hs x hx
    have hcs : ∀ c ∈ cs, Q c := fun y hy => hs y (List.mem_cons_of_mem _ hy)
    cases k with
    | succ k => exact ih k hcs x (by simpa [replaceAllAux] using hx)
    | zero =>
      simp only [replaceAllAux] at hx
      split at hx
      · rcases List.mem_append.1 hx with h | h
        · exact hrepl x h
        · exact ih _ hcs x h
      · rename_i hne
        rcases List.mem_cons.1 hx with rfl | h
        · exact hkeep _ cs (hs _ (List.mem_cons_self _ _)) (fun n hn => hne n hn)
        · exact ih _ hcs x h

theorem mem_of_mem_intercalate_singleton (a : Char) (ws : List (List Char)) (w : List Char)
    (c : Char) (hw : w ∈ ws) (hc : c ∈ w) : c ∈ [a].intercalate ws := by
  have : w ∈ ws.intersperse [a] := by
    clear hc
    induction ws with
    | nil => cases hw
    | cons x xs ih =>
      cases xs with
      | nil => simpa using hw
      | cons y ys =>
        rcases List.mem_cons.1 hw with rfl | h
        · simp [List.intersperse]
        · have := ih h
          simp only [List.intersperse, List.mem_cons] at this ⊢
          tauto
  exact List.mem_flatten.2 ⟨w, this, hc⟩

theorem mem_of_mem_splitOn (a : Char) (l w : List Char) (c : Char)
    (hw : w ∈ l.splitOn a) (hc : c ∈ w) : c ∈ l := by
  have := mem_of_mem_intercalate_singleton a _ w c hw hc
  rwa [List.intercalate_splitOn] at this

theorem truncateWords_forall (P : Char → Prop) (hy : P '-') (words : List (List Char)) :
    ∀ (t : List Char) (cur : Nat), (∀ c ∈ t, P c) → (∀ w ∈ words, ∀ c ∈ w, P c) →
      ∀ c ∈ truncateWords words t cur, P c := by
  induction words with
  | nil => intro t cur ht _; simpa [truncateWords] using ht
  | cons w ws ih =>
    intro t cur ht hw
    have hws : ∀ w ∈ ws, ∀ c ∈ w, P c := fun v hv => hw v (List.mem_cons_of_mem _ hv)
    have hw0 : ∀ c ∈ w, P c := hw w (List.mem_cons_self _ _)
    simp only [truncateWords]
    split
    · exact ht
    · split
      · apply ih _ _ _ hws
        intro c hc
        simp only [List.mem_append, List.mem_singleton] at hc
        rcases hc with (h | rfl) | h
        · exact ht c h
        · exact hy
        · exact hw0 c h
      · apply ih _ _ _ hws
        intro c hc
        rcases List.mem_append.1 hc with h | h
        · exact ht c h
        · exact hw0 c h

theorem limitRunes_len (filename : List Char) :
    len (limitRunes filename) ≤ constants.MaxFilenameLen := by
  unfold limitRunes
  split
  · exact truncateWords_len _ _ _ rfl (Nat.zero_le _)
  · omega

/-- The hard truncation `filename[:MaxFilenameLen]` never cuts anything: the
word loop already keeps the name within the cap. -/
theorem limitLength_eq (filename : List Char) :
    limitLength filename = utf8 (limitRunes filename) := by
  unfold limitLength limitRunes
  split
  · have h := truncateWords_len (filename.splitOn '-') [] 0 rfl (Nat.zero_le _)
    simp only
    rw [if_neg]
    rw [utf8_length]; omega
  · rfl

theorem limitRunes_forall (P : Char → Prop) (hy : P '-') (filename : List Char)
    (h : ∀ c ∈ filename, P c) : ∀ c ∈ limitRunes filename, P c := by
  unfold limitRunes
  split
  · exact truncateWords_forall P hy _ _ _ (by simp)
      (fun w hw c hc => h c (mem_of_mem_splitOn _ _ _ _ hw hc))
  · exact h

theorem keepSafeRune_spec (u : UnicodeTables) (r : Char) :
    IsLetter u (keepSafeRune u r) = true ∨ IsDigit u (keepSafeRune u r) = true ∨
      keepSafeRune u r = '.' ∨ isFilenameSeparator (keepSafeRune u r) = true := by
  unfold keepSafeRune
  split
  · rename_i h
    simp only [Bool.or_eq_true, beq_iff_eq] at h
    rcases h with ((((h | h) | h) | h) | h) | h
    · exact Or.inl h
    · exact Or.inr (Or.inl h)
    · subst h; exact Or.inr (Or.inr (Or.inr (by decide)))
    · subst h; exact Or.inr (Or.inr (Or.inr (by decide)))
    · subst h; exact Or.inr (Or.inr (Or.inr (by decide)))
    · exact Or.inr (Or.inr (Or.inl h))
  · exact Or.inr (Or.inr (Or.inr (by decide)))

theorem matchFilenameSeparators_none (c : Char) (cs : List Char)
    (h : ∀ n, matchFilenameSeparators (c :: cs) ≠ some (n + 1)) :
    isFilenameSeparator c = false := by
  by_contra hc
  simp only [Bool.not_eq_false] at hc
  have := h ((cs.takeWhile isFilenameSeparator).length)
  simp [matchFilenameSeparators, List.takeWhile_cons, hc] at this

theorem stemRune_of_kept (u : UnicodeTables) (c : Char)
    (h : IsLetter u c = true ∨ IsDigit u c = true ∨ c = '.')
    (hsep : isFilenameSeparator c = false) : StemRune u c := by
  refine ⟨by tauto, ?_, ?_, ?_⟩
  · intro hp
    simp only [constants.ProblematicChars, List.mem_cons, List.cons.injEq, and_true,
      List.mem_singleton, List.not_mem_nil, or_false] at hp
    rcases hp with rfl | rfl | rfl | rfl | rfl | rfl | rfl | rfl | rfl <;>
      simp [IsLetter, IsDigit] at h
  · rintro rfl; exact absurd hsep (by decide)
  · rintro rfl; exact absurd hsep (by decide)

theorem stemRune_hyphen (u : UnicodeTables) : StemRune u '-' := by
  refine ⟨Or.inr (Or.inr (Or.inl rfl)), ?_, by decide, by decide⟩
  decide

theorem sanitise_stemRune (u : UnicodeTables) (title : List Char) :
    ∀ c ∈ sanitise u title, StemRune u c := by
  intro c hc
  unfold sanitise TrimHyphens at hc
  have h1 := (List.rdropWhile_prefix (fun c => c == '-') _).subset hc
  have h2 := (List.dropWhile_sublist _).subset h1
  refine replaceAllAux_forall matchFilenameSeparators ['-'] (StemRune u)
    (fun r => IsLetter u r = true ∨ IsDigit u r = true ∨ r = '.' ∨
      isFilenameSeparator r = true) ?_ ?_ _ 0 ?_ c h2
  · intro x hx
    rw [List.mem_singleton.1 hx]; exact stemRune_hyphen u
  · intro r rs hr hnone
    have hsep := matchFilenameSeparators_none r rs hnone
    rcases hr with h | h | h | h
    · exact stemRune_of_kept u r (Or.inl h) hsep
    · exact stemRune_of_kept u r (Or.inr (Or.inl h)) hsep
    · exact stemRune_of_kept u r (Or.inr (Or.inr h)) hsep
    · rw [hsep] at h; cases h
  · intro r hr
    obtain ⟨r0, _, rfl⟩ := List.mem_map.1 hr
    exact keepSafeRune_spec u r0

theorem stemRune_of_isDecimalDigit (u : UnicodeTables) (c : Char) (h : isDecimalDigit c) :
    StemRune u c := by
  unfold isDecimalDigit at h
  have hd : IsDigit u c = true := by
    simp only [IsDigit]
    rw [if_pos (by omega)]
    simp [h.1, h.2]
  apply stemRune_of_kept u c (Or.inr (Or.inl hd))
  simp only [isFilenameSeparator, isPerlSpace, Bool.or_eq_false_iff, beq_eq_false_iff_ne, ne_eq]
  refine ⟨⟨⟨⟨⟨⟨?_, ?_⟩, ?_⟩, ?_⟩, ?_⟩, ?_⟩, ?_⟩ <;>
    first
      | omega
      | (rintro rfl; revert h; decide)

theorem placeholder_stemRune (u : UnicodeTables) (now : Int) :
    ∀ c ∈ "episode-".toList ++ fmtD now, StemRune u c := by
  intro c hc
  rcases List.mem_append.1 hc with h | h
  · simp only [String.toList, List.mem_cons, List.mem_singleton, List.not_mem_nil, or_false] at h
    rcases h with rfl | rfl | rfl | rfl | rfl | rfl | rfl | rfl
    all_goals
      first
        | exact stemRune_hyphen u
        | exact stemRune_of_kept u _ (Or.inl (by simp [IsLetter])) (by decide)
  · cases now with
    | ofNat n => exact stemRune_of_isDecimalDigit u c (repr_isDecimalDigit n c h)
    | negSucc n =>
      rcases List.mem_cons.1 h with rfl | h
      · exact stemRune_hyphen u
      · exact stemRune_of_isDecimalDigit u c (repr_isDecimalDigit _ c h)

/-- C2: for every title, the result of `createSafeFilename` is the UTF-8
encoding of runes each of which is a letter, a digit, a hyphen or a dot, and
none of which is one of the unsafe characters `/ \ : * ? " < > |`, a space or
an underscore. -/
theorem createSafeFilename_runes (u : UnicodeTables) (now : Int) (title : List Char) :
    ∃ cs : List Char, createSafeFilename u now title = utf8 cs ∧
      ∀ c ∈ cs, (IsLetter u c = true ∨ IsDigit u c = true ∨ c = '-' ∨ c = '.') ∧
        [c] ∉ constants.ProblematicChars ∧ c ≠ ' ' ∧ c ≠ '_' := by
  unfold createSafeFilename
  simp only
  split
  · exact ⟨_, rfl, placeholder_stemRune u now⟩
  · exact ⟨_, limitLength_eq _,
      limitRunes_forall (StemRune u) (stemRune_hyphen u) _ (sanitise_stemRune u title)⟩

theorem len_eq_zero (s : List Char) (h : len s = 0) : s = [] := by
  cases s with
  | nil => rfl
  | cons c cs =>
    have := Char.utf8Size_pos c
    rw [len_cons] at h; omega

theorem utf8_eq_nil (s : List Char) (h : utf8 s = []) : s = [] := by
  apply len_eq_zero
  rw [← utf8_length, h]; rfl

theorem utf8_eq_hyphen (s : List Char) (h : utf8 s = utf8 ['-']) : s = ['-'] := by
  cases s with
  | nil => exact absurd h (by decide)
  | cons c cs =>
    have hl : len (c :: cs) = 1 := by rw [← utf8_length, h]; rfl
    have hpos := Char.utf8Size_pos c
    rw [len_cons] at hl
    have hcs : cs = [] := len_eq_zero cs (by omega)
    subst hcs
    have h1 : c.utf8Size = 1 := by simpa [len] using hl
    have hv : c.val ≤ 0x7f := by
      by_contra hv
      have h2 := h1
      unfold Char.utf8Size at h2
      simp only at h2
      have hv2 : ¬ c.val ≤ UInt32.ofNatCore 127 Char.utf8Size.proof_1 := hv
      rw [if_neg hv2] at h2
      split at h2
      · omega
      · split at h2 <;> omega
    have he : String.utf8EncodeChar c = [c.val.toUInt8] := by
      unfold String.utf8EncodeChar
      exact if_pos hv
    have h3 : c.val.toUInt8 = 45 := by
      have : utf8 [c] = [c.val.toUInt8] := by simp [utf8, he]
      rw [this] at h
      have h4 : utf8 ['-'] = [45] := by decide
      rw [h4] at h
      exact List.head_eq_of_cons_eq h
    have h5 : c.val.toNat = 45 := by
      have h6 : c.val.toNat ≤ 127 := by
        have := UInt32.le_def.1 hv
        exact this
      have h7 : c.val.toUInt8.toNat = 45 := by rw [h3]; rfl
      have h8 : c.val.toUInt8.toNat = c.val.toNat % 256 := rfl
      omega
    have h9 : c = '-' := by
      apply Char.ext
      apply UInt32.ext
      exact h5
    rw [h9]

theorem TrimHyphens_head (s : List Char) (cs : List Char) : TrimHyphens s ≠ '-' :: cs := by
  intro h
  unfold TrimHyphens at h
  have hp := List.rdropWhile_prefix (fun c => c == '-') (s.dropWhile (fun c => c == '-'))
  rw [h] at hp
  obtain ⟨t, ht⟩ := hp
  have := List.head?_dropWhile_not (fun c => c == '-') s
  rw [← ht] at this
  simp at this

theorem truncateWords_extends (words : List (List Char)) : ∀ (t : List Char) (cur : Nat),
    t <+: truncateWords words t cur := by
  induction words with
  | nil => intro t cur; simp [truncateWords]
  | cons w ws ih =>
    intro t cur
    simp only [truncateWords]
    split
    · exact List.prefix_refl _
    · split
      · exact (List.prefix_append t ['-']).trans
          ((List.prefix_append (t ++ ['-']) w).trans (ih _ _))
      · exact (List.prefix_append t w).trans (ih _ _)

theorem splitOn_head (a : Char) (l : List Char) :
    ∃ w ws, l.splitOn a = w :: ws ∧ (w = [] → l = [] ∨ ∃ r, l = a :: r) ∧ w <+: l := by
  have hne : l.splitOn a ≠ [] := List.splitOnP_ne_nil _ _
  have hi : [a].intercalate (l.splitOn a) = l := List.intercalate_splitOn l a
  cases hs : l.splitOn a with
  | nil => exact absurd hs hne
  | cons w ws =>
    refine ⟨w, ws, rfl, ?_, ?_⟩
    · intro hw
      rw [hs, hw] at hi
      cases ws with
      | nil => left; simpa [List.intercalate] using hi.symm
      | cons v vs => right; exact ⟨_, by simpa [List.intercalate, List.intersperse] using hi.symm⟩
    · rw [hs] at hi
      cases ws with
      | nil =>
        have : l = w := by simpa [List.intercalate] using hi.symm
        rw [this]
      | cons v vs =>
        exact ⟨_, by simpa [List.intercalate, List.intersperse] using hi⟩

theorem limitRunes_head (s : List Char) (hs : ∀ cs, s ≠ '-' :: cs) :
    ∀ cs, limitRunes s ≠ '-' :: cs := by
  intro cs h
  unfold limitRunes at h
  by_cases hlen : len s > constants.MaxFilenameLen
  · rw [if_pos hlen] at h
    obtain ⟨w, ws, hsp, hw, hpre⟩ := splitOn_head '-' s
    rw [hsp] at h
    simp only [truncateWords] at h
    split at h
    · cases h
    · rw [if_neg (by decide)] at h
      have hp := truncateWords_extends ws ([] ++ w) (0 + len w)
      rw [h] at hp
      simp only [List.nil_append] at hp
      cases w with
      | nil =>
        rcases hw rfl with h0 | ⟨r, hr⟩
        · subst h0
          exact absurd hlen (by decide)
        · exact hs r hr
      | cons c w' =>
        obtain ⟨t1, ht1⟩ := hp
        obtain ⟨t2, ht2⟩ := hpre
        have hc : c = '-' := by
          have := congrArg List.head? ht1
          simpa using this
        subst hc
        exact hs _ ht2.symm
  · rw [if_neg hlen] at h
    exact hs cs h

/-- The test `filename == "-"` of `createSafeFilename` never holds: the name
was trimmed of hyphens and the length cap keeps its first rune. -/
theorem limitLength_sanitise_ne_hyphen (u : UnicodeTables) (title : List Char) :
    limitLength (sanitise u title) ≠ utf8 ['-'] := by
  intro h
  rw [limitLength_eq] at h
  have := utf8_eq_hyphen _ h
  exact limitRunes_head (sanitise u title) (TrimHyphens_head _) [] this

theorem placeholder_ne_nil (now : Int) : utf8 ("episode-".toList ++ fmtD now) ≠ [] := by
  intro h
  exact List.append_ne_nil_of_left_ne_nil (by decide) _ (utf8_eq_nil _ h)

/-- C3 (as amended): for every title whose sanitised, length-capped name is
not empty, `createSafeFilename` returns the same filename at every call time. -/
theorem createSafeFilename_time_independent (u : UnicodeTables) (now₁ now₂ : Int)
    (title : List Char) (h : limitLength (sanitise u title) ≠ []) :
    createSafeFilename u now₁ title = createSafeFilename u now₂ title := by
  have h2 := limitLength_sanitise_ne_hyphen u title
  unfold createSafeFilename
  simp only
  rw [if_neg (not_or.2 ⟨h, h2⟩), if_neg (not_or.2 ⟨h, h2⟩)]

theorem createSafeFilename_time_independent_witness :
    limitLength (sanitise UnicodeTables.latin1 "La batalla de Muret".toList) ≠ [] ∧
      createSafeFilename UnicodeTables.latin1 1700000000 "La batalla de Muret".toList =
        createSafeFilename UnicodeTables.latin1 1700000060 "La batalla de Muret".toList :=
  ⟨by decide, createSafeFilename_time_independent _ _ _ _ (by decide)⟩

/-- C3 (counterexample): the title `???` gets two different filenames at two
call times one second apart. -/
theorem createSafeFilename_time_dependent :
    createSafeFilename UnicodeTables.latin1 1700000000 "???".toList = utf8 "episode-1700000000".toList ∧
      createSafeFilename UnicodeTables.latin1 1700000001 "???".toList = utf8 "episode-1700000001".toList ∧
      createSafeFilename UnicodeTables.latin1 1700000000 "???".toList ≠
        createSafeFilename UnicodeTables.latin1 1700000001 "???".toList := by
  decide

theorem replaceAllAux_skip (m : List Char → Option Nat) (repl : List Char) :
    ∀ (s : List Char) (k : Nat), s.length ≤ k → replaceAllAux m repl k s = [] := by
  intro s
  induction s with
  | nil => intro k _; cases k <;> rfl
  | cons c cs ih =>
    intro k hk
    cases k with
    | zero => simp at hk
    | succ k =>
      simp only [replaceAllAux]
      exact ih k (by simpa using hk)

theorem collapse_all_separators (s : List Char) (h : ∀ c ∈ s, isFilenameSeparator c = true) :
    replaceAllMatches matchFilenameSeparators ['-'] s = [] ∨
      replaceAllMatches matchFilenameSeparators ['-'] s = ['-'] := by
  cases s with
  | nil => left; rfl
  | cons c cs =>
    right
    have ht : (c :: cs).takeWhile isFilenameSeparator = c :: cs :=
      List.takeWhile_eq_self_iff.2 h
    have hm : matchFilenameSeparators (c :: cs) = some (cs.length + 1) := by
      unfold matchFilenameSeparators
      rw [ht]; rfl
    unfold replaceAllMatches
    simp only [replaceAllAux, hm]
    rw [replaceAllAux_skip _ _ cs _ (Nat.le_refl _)]
    rfl

theorem isSeparatorOrUnsafe_spec (u : UnicodeTables) (c : Char) (h : isSeparatorOrUnsafe c) :
    ToLowerRune u c = c ∧ isFilenameSeparator (keepSafeRune u c) = true := by
  unfold isSeparatorOrUnsafe at h
  simp only [constants.ProblematicChars, List.mem_cons, List.cons.injEq, and_true,
    List.mem_singleton, List.not_mem_nil, or_false] at h
  rcases h with (rfl | rfl | rfl | rfl | rfl | rfl | rfl | rfl | rfl) | rfl | rfl | rfl <;>
    exact ⟨rfl, rfl⟩

theorem ReplaceAll_forall (P : Char → Prop) (s old new : List Char) (hs : ∀ c ∈ s, P c)
    (hnew : ∀ c ∈ new, P c) : ∀ c ∈ ReplaceAll s old new, P c :=
  replaceAllAux_forall _ _ P P hnew (fun _ _ h _ => h) s 0 hs

theorem foldl_ReplaceAll_forall (P : Char → Prop) (new : List Char) (hnew : ∀ c ∈ new, P c)
    (olds : List (List Char)) : ∀ s : List Char, (∀ c ∈ s, P c) →
      ∀ c ∈ olds.foldl (fun filename char => ReplaceAll filename char new) s, P c := by
  induction olds with
  | nil => intro s hs; simpa using hs
  | cons o os ih =>
    intro s hs
    simp only [List.foldl_cons]
    exact ih _ (ReplaceAll_forall P s o new hs hnew)

theorem sanitise_of_separators (u : UnicodeTables) (title : List Char)
    (h : ∀ c ∈ title, isSeparatorOrUnsafe c) : sanitise u title = [] := by
  have h1 : ToLower u title = title := by
    unfold ToLower
    conv_rhs => rw [← List.map_id title]
    exact List.map_congr_left (fun c hc => (isSeparatorOrUnsafe_spec u c (h c hc)).1)
  have h2 := foldl_ReplaceAll_forall isSeparatorOrUnsafe ['-']
    (by intro c hc; rw [List.mem_singleton.1 hc]; exact Or.inr (Or.inr (Or.inl rfl)))
    constants.ProblematicChars title h
  have h3 : ∀ c ∈ (constants.ProblematicChars.foldl
      (fun filename char => ReplaceAll filename char ['-']) title).map (keepSafeRune u),
      isFilenameSeparator c = true := by
    intro c hc
    obtain ⟨r, hr, rfl⟩ := List.mem_map.1 hc
    exact (isSeparatorOrUnsafe_spec u r (h2 r hr)).2
  unfold sanitise
  simp only [h1]
  rcases collapse_all_separators _ h3 with h4 | h4 <;> rw [h4] <;> decide

theorem limitLength_nil : limitLength [] = [] := by decide

/-- C4: for every title the result of `createSafeFilename` is non-empty, and a
title made only of the unsafe punctuation `/ \ : * ? " < > |`, spaces, hyphens
and underscores (the empty title included) yields `episode-` followed by the
decimal Unix time. -/
theorem createSafeFilename_nonempty (u : UnicodeTables) (now : Int) (title : List Char) :
    createSafeFilename u now title ≠ [] ∧
      ((∀ c ∈ title, [c] ∈ constants.ProblematicChars ∨ c = ' ' ∨ c = '-' ∨ c = '_') →
        createSafeFilename u now title = utf8 ("episode-".toList ++ fmtD now)) := by
  constructor
  · unfold createSafeFilename
    simp only
    split
    · exact placeholder_ne_nil now
    · rename_i h
      exact fun h0 => h (Or.inl h0)
  · intro h
    unfold createSafeFilename
    simp only
    rw [sanitise_of_separators u title h, limitLength_nil]
    exact if_pos (Or.inl rfl)

theorem createSafeFilename_nonempty_witness :
    (∀ c ∈ "/? - _".toList, [c] ∈ constants.ProblematicChars ∨ c = ' ' ∨ c = '-' ∨ c = '_') ∧
      createSafeFilename UnicodeTables.latin1 1700000000 "/? - _".toList =
        utf8 ("episode-".toList ++ fmtD 1700000000) :=
  ⟨by decide, (createSafeFilename_nonempty _ _ _).2 (by decide)⟩

/-! ## Image URL resolution -/

/-- C7: for every listing item whose first image has the non-empty text `t`,
the episode's `Image` is `t` unchanged when `t` starts with `http://` or
`https://`, else `https://img.3cat.cat` followed by `t` when `t` starts with
`/`, else `https://img.3cat.cat/multimedia/` followed by `t`. -/
theorem image_url_precedence (u : UnicodeTables) (env : ItemEnv) (item : ListItem)
    (img : MediaRef) (rest : List MediaRef) (h : item.Imatges = img :: rest)
    (ht : img.Text ≠ []) :
    ((HasPrefix img.Text "http://".toList = true ∨ HasPrefix img.Text "https://".toList = true) →
        (buildEpisode u env item).Image = img.Text) ∧
      (HasPrefix img.Text "http://".toList = false →
        HasPrefix img.Text "https://".toList = false →
        HasPrefix img.Text "/".toList = true →
        (buildEpisode u env item).Image = "https://img.3cat.cat".toList ++ img.Text) ∧
      (HasPrefix img.Text "http://".toList = false →
        HasPrefix img.Text "https://".toList = false →
        HasPrefix img.Text "/".toList = false →
        (buildEpisode u env item).Image =
          "https://img.3cat.cat/multimedia/".toList ++ img.Text) := by
  have key : (buildEpisode u env item).Image =
      if HasPrefix img.Text "http://".toList || HasPrefix img.Text "https://".toList then
        img.Text
      else if HasPrefix img.Text "/".toList then "https://img.3cat.cat".toList ++ img.Text
      else constants.CCMAMediaBaseURL ++ "/".toList ++ img.Text := by
    unfold buildEpisode
    simp only [h, ht, ne_eq, not_false_eq_true, if_true]
    split <;> (try split) <;> (try split) <;> rfl
  refine ⟨?_, ?_, ?_⟩
  · intro h1
    rw [key, if_pos (by simpa using h1)]
  · intro h1 h2 h3
    rw [key, if_neg (by rw [h1, h2]; decide), if_pos h3]
  · intro h1 h2 h3
    rw [key, if_neg (by rw [h1, h2]; decide), if_neg (by rw [h3]; decide)]
    rfl

theorem image_url_precedence_witness :
    (buildEpisode UnicodeTables.latin1 exampleItemEnv exampleImageItem).Image =
      "https://img.3cat.cat/multimedia/jpg/6/2/1472799754526.jpg".toList :=
  (image_url_precedence UnicodeTables.latin1 exampleItemEnv exampleImageItem
    ⟨"jpg/6/2/1472799754526.jpg".toList⟩ [] rfl (by decide)).2.2
    (by decide) (by decide) (by decide)

/-! ## Pagination of `ScrapeEpisodesWithLimit` -/

theorem scrapeLoop_bounded (u : UnicodeTables) (w : World) (maxPages : Int)
    (hmax : 0 < maxPages) : ∀ (fuel pageNum : Nat) (all : List Episode) (requested : List Nat),
    (pageNum : Int) ≤ maxPages → maxPages - pageNum + 1 ≤ fuel →
    ∃ n : Nat, (pageNum + n : Int) ≤ maxPages ∧
      (scrapeLoop u w maxPages fuel pageNum all requested).requested =
        requested ++ List.range' pageNum (n + 1) ∧
      ∃ episodes err,
        (scrapeLoop u w maxPages fuel pageNum all requested).outcome =
          .returned episodes err := by
  intro fuel
  induction fuel with
  | zero => intro pageNum all requested h1 h2; omega
  | succ fuel ih =>
    intro pageNum all requested h1 h2
    have stop : ∀ (eps : List Episode) (err : Option ScrapeError),
        ∃ n : Nat, (pageNum + n : Int) ≤ maxPages ∧
          (Run.mk (requested ++ [pageNum]) (.returned eps err)).requested =
            requested ++ List.range' pageNum (n + 1) ∧
          ∃ episodes err',
            (Run.mk (requested ++ [pageNum]) (.returned eps err)).outcome =
              .returned episodes err' :=
      fun eps err => ⟨0, by simpa using h1, by simp [List.range'], eps, err, rfl⟩
    unfold scrapeLoop
    split
    · exact stop _ _
    · split
      · exact stop _ _
      · split
        · exact stop _ _
        · split
          · exact stop _ _
          · simp only
            split
            · exact stop _ _
            · split
              · exact stop _ _
              · split
                · exact stop _ _
                · rename_i hlim _
                  have hlt : (pageNum : Int) < maxPages := by
                    by_contra hge
                    exact hlim ⟨hmax, by omega⟩
                  obtain ⟨n, hn, hreq, hout⟩ := ih (pageNum + 1)
                    (all ++ processItems u (w.item requested.length) 0 _)
                    (requested ++ [pageNum]) (by push_cast; omega) (by push_cast; omega)
                  refine ⟨n + 1, by push_cast at hn ⊢; omega, ?_, hout⟩
                  rw [hreq, List.append_assoc]
                  rfl

/-- C8: for every positive `maxPages` and every behaviour of the listing API,
`ScrapeEpisodesWithLimit(maxPages)` returns within `maxPages` rounds of its
loop, having requested exactly the pages `1, 2, ..., k` in this order, for some
`1 ≤ k ≤ maxPages`. -/
theorem ScrapeEpisodesWithLimit_page_limit (u : UnicodeTables) (w : World) (maxPages : Int)
    (fuel : Nat) (hmax : 0 < maxPages) (hfuel : maxPages ≤ fuel) :
    ∃ k : Nat, 1 ≤ k ∧ (k : Int) ≤ maxPages ∧
      (ScrapeEpisodesWithLimit u w maxPages fuel).requested = List.range' 1 k ∧
      ∃ episodes err,
        (ScrapeEpisodesWithLimit u w maxPages fuel).outcome = .returned episodes err := by
  obtain ⟨n, hn, hreq, hout⟩ := scrapeLoop_bounded u w maxPages hmax fuel 1 [] []
    (by push_cast; omega) (by push_cast; omega)
  refine ⟨n + 1, by omega, by push_cast at hn ⊢; omega, ?_, hout⟩
  simpa using hreq

theorem ScrapeEpisodesWithLimit_page_limit_witness :
    ∃ k : Nat, 1 ≤ k ∧ (k : Int) ≤ 3 ∧
      (ScrapeEpisodesWithLimit UnicodeTables.latin1 endlessWorld 3 3).requested =
        List.range' 1 k ∧
      ∃ episodes err,
        (ScrapeEpisodesWithLimit UnicodeTables.latin1 endlessWorld 3 3).outcome =
          .returned episodes err :=
  ScrapeEpisodesWithLimit_page_limit UnicodeTables.latin1 endlessWorld 3 3
    (by decide) (by decide)

theorem processItems_length (u : UnicodeTables) (env : Nat → ItemEnv) (items : List ListItem) :
    ∀ i, (processItems u env i items).length = items.length := by
  induction items with
  | nil => intro i; rfl
  | cons x xs ih => intro i; simp [processItems, ih]

/-- C9 (counterexample): with 2 reported pages, one item on page 1 and none on
page 2, `ScrapeEpisodesWithLimit(0)` requests page 1 and then page 2. -/
theorem two_page_run_requests_page_two :
    (ScrapeEpisodesWithLimit UnicodeTables.latin1 twoPageWorld 0 2).requested = [1, 2] := by
  decide

/-- C9 (as amended): when the listing API reports 2 pages, answers page 1 with
`N ≥ 1` items and page 2 with none, `ScrapeEpisodesWithLimit(0)` requests
page 1 and then page 2, stops there at the last-page check, and returns the `N`
episodes of page 1 without error. -/
theorem two_page_run (u : UnicodeTables) (w : World) (r₁ r₂ : CCMAListResponse) (fuel : Nat)
    (h₁ : w.listing 0 1 = .response 200 (some r₁))
    (h₂ : w.listing 1 2 = .response 200 (some r₂))
    (hs₁ : r₁.Status = constants.APIStatusOK) (hs₂ : r₂.Status = constants.APIStatusOK)
    (ht₁ : r₁.TotalPagines = 2) (ht₂ : r₂.TotalPagines = 2)
    (hn : 1 ≤ r₁.Item.length) (he : r₂.Item = []) (hfuel : 2 ≤ fuel) :
    ScrapeEpisodesWithLimit u w 0 fuel =
        ⟨[1, 2], .returned (processItems u (w.item 0) 0 r₁.Item) none⟩ ∧
      (processItems u (w.item 0) 0 r₁.Item).length = r₁.Item.length := by
  refine ⟨?_, processItems_length u _ _ 0⟩
  obtain ⟨f, rfl⟩ : ∃ f, fuel = f + 2 := ⟨fuel - 2, by omega⟩
  have hne : r₁.Item.length ≠ 0 := by omega
  simp [ScrapeEpisodesWithLimit, scrapeLoop, h₁, h₂, hs₁, hs₂, ht₁, ht₂, hne, he, processItems]

theorem two_page_run_witness :
    ScrapeEpisodesWithLimit UnicodeTables.latin1 twoPageWorld 0 2 =
        ⟨[1, 2], .returned (processItems UnicodeTables.latin1 (twoPageWorld.item 0) 0
          [exampleImageItem]) none⟩ ∧
      (processItems UnicodeTables.latin1 (twoPageWorld.item 0) 0 [exampleImageItem]).length =
        1 :=
  two_page_run UnicodeTables.latin1 twoPageWorld
    ⟨constants.APIStatusOK, [exampleImageItem], 2⟩ ⟨constants.APIStatusOK, [], 2⟩ 2
    rfl rfl rfl rfl rfl rfl (by decide) rfl (by decide)

theorem getElem?_append_singleton (l : List Nat) (a : Nat) (j p : Nat)
    (h : (l ++ [a])[j]? = some p) : l[j]? = some p ∨ (j = l.length ∧ p = a) := by
  by_cases hj : j < l.length
  · left
    rwa [List.getElem?_append_left hj] at h
  · right
    have hj' : l.length ≤ j := by omega
    rw [List.getElem?_append_right hj'] at h
    by_cases h0 : j - l.length = 0
    · rw [h0] at h
      simp at h
      exact ⟨by omega, h.symm⟩
    · obtain ⟨m, hm⟩ : ∃ m, j - l.length = m + 1 := ⟨j - l.length - 1, by omega⟩
      rw [hm] at h
      simp at h

theorem scrapeLoop_failure (u : UnicodeTables) (w : World) (maxPages : Int) (i page : Nat)
    (hfail : pageFailed (w.listing i page)) :
    ∀ (fuel pageNum : Nat) (all : List Episode) (requested : List Nat),
    (∀ j p, requested[j]? = some p → ¬ pageFailed (w.listing j p)) →
    (scrapeLoop u w maxPages fuel pageNum all requested).requested[i]? = some page →
    ∃ e, (scrapeLoop u w maxPages fuel pageNum all requested).outcome =
      .returned [] (some e) := by
  intro fuel
  induction fuel with
  | zero =>
    intro pageNum all requested hreq hi
    exact absurd hfail (hreq i page hi)
  | succ fuel ih =>
    intro pageNum all requested hreq
    unfold scrapeLoop
    split
    · intro _; exact ⟨_, rfl⟩
    · rename_i statusCode body hl
      split
      · intro _; exact ⟨_, rfl⟩
      · rename_i hcode
        split
        · intro _; exact ⟨_, rfl⟩
        · rename_i listResp
          split
          · intro _; exact ⟨_, rfl⟩
          · rename_i hstatus
            have hreq' : ∀ j p, (requested ++ [pageNum])[j]? = some p →
                ¬ pageFailed (w.listing j p) := by
              intro j p hj
              rcases getElem?_append_singleton _ _ _ _ hj with h | ⟨rfl, rfl⟩
              · exact hreq j p h
              · rw [hl]
                simp only [pageFailed, ne_eq, not_or, not_exists, not_and, not_not]
                refine ⟨not_not.1 hcode, by simp, ?_⟩
                intro r hr
                cases hr
                exact not_not.1 hstatus
            simp only
            split
            · intro hi; exact absurd hfail (hreq' i page hi)
            · split
              · intro hi; exact absurd hfail (hreq' i page hi)
              · split
                · intro hi; exact absurd hfail (hreq' i page hi)
                · exact ih _ _ _ hreq'

/-- C10: if any listing page a run of `ScrapeEpisodesWithLimit` requests fails
(transport error, HTTP status other than 200, undecodable body, or decoded
status other than `OK`), the run has returned an error and no episodes,
whatever the earlier pages contributed. -/
theorem ScrapeEpisodesWithLimit_discards_on_failure (u : UnicodeTables) (w : World)
    (maxPages : Int) (fuel i page : Nat)
    (hreq : (ScrapeEpisodesWithLimit u w maxPages fuel).requested[i]? = some page)
    (hfail : pageFailed (w.listing i page)) :
    ∃ e, (ScrapeEpisodesWithLimit u w maxPages fuel).outcome = .returned [] (some e) :=
  scrapeLoop_failure u w maxPages i page hfail fuel 1 [] [] (by simp) hreq

theorem ScrapeEpisodesWithLimit_discards_on_failure_witness :
    (ScrapeEpisodesWithLimit UnicodeTables.latin1 failingWorld 0 5).requested[1]? = some 2 ∧
      pageFailed (failingWorld.listing 1 2) ∧
      ∃ e, (ScrapeEpisodesWithLimit UnicodeTables.latin1 failingWorld 0 5).outcome =
        .returned [] (some e) :=
  ⟨by decide, Or.inl (by decide),
    ScrapeEpisodesWithLimit_discards_on_failure UnicodeTables.latin1 failingWorld 0 5 1 2
      (by decide) (Or.inl (by decide))⟩

/-! ## `cleanTitle` and `cleanDescription` -/

theorem replaceAllAux_filter_sublist (m : List Char → Option Nat) (repl : List Char)
    (p : Char → Bool) (hp : ∀ c ∈ repl, p c = false) :
    ∀ (s : List Char) (k : Nat), List.Sublist ((replaceAllAux m repl k s).filter p) s := by
  intro s
  induction s with
  | nil => intro k; cases k <;> simp [replaceAllAux]
  | cons c cs ih =>
    intro k
    cases k with
    | succ k => simp only [replaceAllAux]; exact (ih k).trans (List.sublist_cons_self _ _)
    | zero =>
      simp only [replaceAllAux]
      split
      · rw [List.filter_append, List.filter_eq_nil_iff.2 (by simpa using hp), List.nil_append]
        exact (ih _).trans (List.sublist_cons_self _ _)
      · by_cases hc : p c = true
        · simpa [List.filter_cons, hc] using (ih 0).cons₂ c
        · simpa [List.filter_cons, hc] using (ih 0).trans (List.sublist_cons_self c cs)

theorem replaceAllAux_sublist (m : List Char → Option Nat) (s : List Char) (k : Nat) :
    List.Sublist (replaceAllAux m [] k s) s := by
  have := replaceAllAux_filter_sublist m [] (fun _ => true) (by simp) s k
  simpa using this

theorem tag_sublist_of_containsTag (s : List Char) (h : ContainsTag s) : List.Sublist ['<', '>'] s := by
  obtain ⟨p, t, rfl, ht⟩ := h
  apply List.Sublist.trans _ (List.sublist_append_right p t)
  cases t with
  | nil => exact absurd rfl ht
  | cons c cs =>
    simp only [matchHTMLTag] at ht
    split at ht
    · rename_i hc
      rw [hc.1]
      exact (List.singleton_sublist.2 hc.2).cons₂ _
    · exact absurd rfl ht

theorem stripTags_no_tag (s : List Char) :
    ∀ k, ¬ List.Sublist ['<', '>'] (replaceAllAux matchHTMLTag [] k s) := by
  induction s with
  | nil => intro k; cases k <;> simp [replaceAllAux]
  | cons c cs ih =>
    intro k
    cases k with
    | succ k => simp only [replaceAllAux]; exact ih k
    | zero =>
      simp only [replaceAllAux]
      split
      · simpa using ih _
      · rename_i hnone
        intro hsub
        rcases List.sublist_cons_iff.1 hsub with h | ⟨r, hr, h⟩
        · exact ih 0 h
        · simp only [List.cons.injEq] at hr
          obtain ⟨hc, rfl⟩ := hr
          have hmem : '>' ∈ cs :=
            (replaceAllAux_sublist matchHTMLTag cs 0).subset (List.singleton_sublist.1 h)
          have : matchHTMLTag (c :: cs) =
              some ((cs.takeWhile (fun x => x != '>')).length + 1 + 1) := by
            simp only [matchHTMLTag]
            rw [if_pos ⟨hc.symm, hmem⟩]
          exact hnone _ this

theorem ReplaceAll_absent (old new : List Char) :
    ∀ s : List Char, ¬ old <:+: s → ReplaceAll s old new = s := by
  intro s
  induction s with
  | nil => intro _; rfl
  | cons c cs ih =>
    intro h
    have h1 : matchLiteral old (c :: cs) = none := by
      unfold matchLiteral
      rw [if_neg]
      intro hp
      exact h (List.isPrefixOf_iff_prefix.1 hp).isInfix
    have h2 : ¬ old <:+: cs := fun hi => h (hi.trans (List.suffix_cons c cs).isInfix)
    have := ih h2
    unfold ReplaceAll replaceAllMatches at this ⊢
    simp only [replaceAllAux, h1, this]

theorem decodeEntities_absent (order : List (List Char × List Char)) (s : List Char)
    (h : ∀ e ∈ order, ¬ e.1 <:+: s) : decodeEntities order s = s := by
  unfold decodeEntities
  induction order with
  | nil => rfl
  | cons e es ih =>
    simp only [List.foldl_cons]
    rw [ReplaceAll_absent _ _ _ (h e (List.mem_cons_self _ _))]
    exact ih (fun x hx => h x (List.mem_cons_of_mem _ hx))

theorem TrimSpace_within (s : List Char) : TrimSpace s <:+: s :=
  (List.rdropWhile_prefix _ _).isInfix.trans (List.dropWhile_suffix _).isInfix

theorem TrimSuffix_initial (s suffix : List Char) : TrimSuffix s suffix <+: s := by
  unfold TrimSuffix
  split
  · exact List.take_prefix _ _
  · exact List.prefix_refl _

theorem foldl_TrimSuffix_initial (sufs : List (List Char)) :
    ∀ s : List Char, sufs.foldl TrimSuffix s <+: s := by
  induction sufs with
  | nil => intro s; exact List.prefix_refl _
  | cons x xs ih => intro s; exact (ih _).trans (TrimSuffix_initial s x)

theorem collapse_no_tag (s : List Char) (h : ¬ List.Sublist ['<', '>'] s) :
    ¬ List.Sublist ['<', '>'] (replaceAllMatches matchWhitespace [' '] s) := by
  intro hsub
  have h1 := hsub.filter (fun c => c != ' ')
  have h2 := replaceAllAux_filter_sublist matchWhitespace [' '] (fun c => c != ' ')
    (by simp) s 0
  exact h ((by simpa using h1 : List.Sublist ['<', '>'] _).trans h2)

/-- The text of both cleaners after the whitespace step, when the entity loop
changes nothing. -/
theorem cleaned_no_tag (s : List Char) :
    ¬ List.Sublist ['<', '>'] (TrimSpace (replaceAllMatches matchWhitespace [' ']
      (replaceAllMatches matchHTMLTag [] s))) := fun h =>
  collapse_no_tag _ (stripTags_no_tag s 0) (h.trans (TrimSpace_within _).sublist)

/-! ### What the entity loop can write -/

theorem replaceAllAux_single_initial (m : List Char → Option Nat) (x : Char)
    (e : List Char) (he : x ∉ e) :
    ∀ s : List Char, e <+: replaceAllAux m [x] 0 s → e <+: s := by
  induction e with
  | nil => intro s _; exact List.nil_prefix
  | cons y ys ih =>
    intro s h
    have hy : x ≠ y := fun hxy => he (hxy ▸ List.mem_cons_self _ _)
    have hys : x ∉ ys := fun hx => he (List.mem_cons_of_mem _ hx)
    cases s with
    | nil => simp [replaceAllAux] at h
    | cons c cs =>
      simp only [replaceAllAux] at h
      split at h
      · rcases List.prefix_cons_iff.1 h with h0 | ⟨t, ht, _⟩
        · cases h0
        · simp only [List.cons.injEq] at ht
          exact absurd ht.1.symm hy
      · rcases List.prefix_cons_iff.1 h with h0 | ⟨t, ht, hpre⟩
        · cases h0
        · simp only [List.cons.injEq] at ht
          obtain ⟨rfl, rfl⟩ := ht
          exact List.prefix_cons_iff.2 (Or.inr ⟨ys, rfl, ih hys cs hpre⟩)

theorem replaceAllAux_single_within (m : List Char → Option Nat) (x : Char)
    (e : List Char) (he : x ∉ e) :
    ∀ (s : List Char) (k : Nat), e <:+: replaceAllAux m [x] k s → e <:+: s := by
  intro s
  induction s with
  | nil =>
    intro k h
    have : replaceAllAux m [x] k [] = [] := by cases k <;> rfl
    rwa [this] at h
  | cons c cs ih =>
    intro k h
    cases k with
    | succ k =>
      simp only [replaceAllAux] at h
      exact (ih k h).trans (List.suffix_cons c cs).isInfix
    | zero =>
      have h' := h
      simp only [replaceAllAux] at h'
      split at h'
      · rcases List.infix_cons_iff.1 h' with h1 | h1
        · rcases List.prefix_cons_iff.1 h1 with rfl | ⟨t, rfl, _⟩
          · exact List.nil_infix
          · exact absurd (List.mem_cons_self _ _) he
        · exact (ih _ h1).trans (List.suffix_cons c cs).isInfix
      · rcases List.infix_cons_iff.1 h' with h1 | h1
        · have h2 : e <+: replaceAllAux m [x] 0 (c :: cs) := by
            simp only [replaceAllAux]
            exact h1
          exact (replaceAllAux_single_initial m x e he _ h2).isInfix
        · exact (ih _ h1).trans (List.suffix_cons c cs).isInfix

theorem replaceAllAux_single_no_tag (m : List Char → Option Nat) (x : Char)
    (hx : (x != '<' && x != '>') = true) (s : List Char) (k : Nat)
    (h : ¬ List.Sublist ['<', '>'] s) :
    ¬ List.Sublist ['<', '>'] (replaceAllAux m [x] k s) := by
  intro hsub
  have hlt : x ≠ '<' := by
    rintro rfl; exact absurd hx (by decide)
  have hgt : x ≠ '>' := by
    rintro rfl; exact absurd hx (by decide)
  have h1 := hsub.filter (fun c => c != x)
  have h2 := replaceAllAux_filter_sublist m [x] (fun c => c != x) (by simp) s k
  have e1 : ('<' != x) = true := bne_iff_ne.2 (Ne.symm hlt)
  have e2 : ('>' != x) = true := bne_iff_ne.2 (Ne.symm hgt)
  have h3 : List.filter (fun c => c != x) ['<', '>'] = ['<', '>'] := by
    simp only [List.filter, e1, e2]
  rw [h3] at h1
  exact h (h1.trans h2)

theorem replaceAllAux_drop (m : List Char → Option Nat) (repl : List Char) :
    ∀ (k : Nat) (s : List Char), replaceAllAux m repl k s = replaceAllAux m repl 0 (s.drop k) := by
  intro k
  induction k with
  | zero => intro s; rfl
  | succ k ih =>
    intro s
    cases s with
    | nil => rfl
    | cons c cs => simp only [replaceAllAux, List.drop_succ_cons]; exact ih cs

theorem matchLiteral_some (old t : List Char) (n : Nat) (h : matchLiteral old t = some n) :
    n = old.length ∧ t = old ++ t.drop old.length := by
  unfold matchLiteral at h
  split at h
  · rename_i hp
    simp only [Option.some.injEq] at h
    obtain ⟨r, rfl⟩ := List.isPrefixOf_iff_prefix.1 hp
    exact ⟨h.symm, by rw [List.drop_left]⟩
  · cases h

/-- Unescaping the ampersand: an entity `&q` of the result was `&q` or
`&amp;q` before. -/
theorem unescape_within (q : List Char) (hq : '&' ∉ q) :
    ∀ (s : List Char) (k : Nat),
      ('&' :: q) <:+: replaceAllAux (matchLiteral "&amp;".toList) ['&'] k s →
        ('&' :: q) <:+: s ∨ ("&amp;".toList ++ q) <:+: s := by
  intro s
  induction s with
  | nil =>
    intro k h
    have : replaceAllAux (matchLiteral "&amp;".toList) ['&'] k [] = [] := by cases k <;> rfl
    rw [this] at h
    exact Or.inl h
  | cons c cs ih =>
    intro k h
    have up : ∀ p : List Char, p <:+: cs → p <:+: c :: cs :=
      fun p hp => hp.trans (List.suffix_cons c cs).isInfix
    cases k with
    | succ k =>
      simp only [replaceAllAux] at h
      exact (ih k h).imp (up _) (up _)
    | zero =>
      cases hm : matchLiteral "&amp;".toList (c :: cs) with
      | none =>
        have hR : replaceAllAux (matchLiteral "&amp;".toList) ['&'] 0 (c :: cs) =
            c :: replaceAllAux (matchLiteral "&amp;".toList) ['&'] 0 cs := by
          simp only [replaceAllAux, hm]
        rw [hR] at h
        rcases List.infix_cons_iff.1 h with h1 | h1
        · rcases List.prefix_cons_iff.1 h1 with h0 | ⟨t, ht, hpre⟩
          · cases h0
          · simp only [List.cons.injEq] at ht
            obtain ⟨rfl, rfl⟩ := ht
            exact Or.inl (List.prefix_cons_iff.2 (Or.inr ⟨_, rfl,
              replaceAllAux_single_initial _ '&' _ hq cs hpre⟩)).isInfix
        · exact (ih 0 h1).imp (up _) (up _)
      | some n =>
        obtain ⟨hn, hcs⟩ := matchLiteral_some _ _ _ hm
        have hn5 : n = 4 + 1 := hn
        subst hn5
        have hR : replaceAllAux (matchLiteral "&amp;".toList) ['&'] 0 (c :: cs) =
            '&' :: replaceAllAux (matchLiteral "&amp;".toList) ['&'] 4 cs := by
          simp only [replaceAllAux, hm, List.singleton_append]
        rw [hR] at h
        rcases List.infix_cons_iff.1 h with h1 | h1
        · rcases List.prefix_cons_iff.1 h1 with h0 | ⟨t, ht, hpre⟩
          · cases h0
          · simp only [List.cons.injEq] at ht
            obtain ⟨_, rfl⟩ := ht
            rw [replaceAllAux_drop] at hpre
            have h2 := replaceAllAux_single_initial _ '&' _ hq _ hpre
            refine Or.inr (List.IsPrefix.isInfix ?_)
            rw [hcs]
            exact (List.prefix_append_right_inj _).2 h2
        · exact (ih 4 h1).imp (up _) (up _)

theorem ReplaceAll_single_within (old e : List Char) (x : Char) (he : x ∉ e) (t : List Char)
    (h : ¬ e <:+: t) : ¬ e <:+: ReplaceAll t old [x] :=
  fun hi => h (replaceAllAux_single_within (matchLiteral old) x e he t 0 hi)

theorem ReplaceAll_single_no_tag (old : List Char) (x : Char)
    (hx : (x != '<' && x != '>') = true) (t : List Char) (h : ¬ List.Sublist ['<', '>'] t) :
    ¬ List.Sublist ['<', '>'] (ReplaceAll t old [x]) :=
  replaceAllAux_single_no_tag (matchLiteral old) x hx t 0 h

/-- The entity loop writes no tag into a text without one when `&lt;` and
`&gt;` are absent and stay absent: `l` is the part of the table still to be
visited. -/
theorem decodeEntities_no_tag (l : List (List Char × List Char)) :
    l.Nodup → (∀ e ∈ l, e ∈ constants.HTMLEntities) → ∀ t : List Char,
      ¬ List.Sublist ['<', '>'] t → ¬ "&lt;".toList <:+: t → ¬ "&gt;".toList <:+: t →
      (("&amp;".toList, "&".toList) ∈ l →
        ¬ "&amp;lt;".toList <:+: t ∧ ¬ "&amp;gt;".toList <:+: t) →
      ¬ List.Sublist ['<', '>'] (decodeEntities l t) := by
  induction l with
  | nil => intro _ _ t h _ _ _; exact h
  | cons e es ih =>
    intro hnd hsub t htag hlt hgt hamp
    have hnd2 := (List.nodup_cons.1 hnd)
    have hsub2 : ∀ x ∈ es, x ∈ constants.HTMLEntities :=
      fun x hx => hsub x (List.mem_cons_of_mem _ hx)
    have he := hsub e (List.mem_cons_self _ _)
    have hstep : decodeEntities (e :: es) t = decodeEntities es (ReplaceAll t e.1 e.2) := rfl
    rw [hstep]
    have hquote : ∀ x : Char, e.2 = [x] → (x != '<' && x != '>') = true →
        (∀ p ∈ escapedAngles, x ∉ p) →
        ¬ List.Sublist ['<', '>'] (decodeEntities es (ReplaceAll t e.1 e.2)) := by
      intro x hx hx1 hx2
      rw [hx]
      refine ih hnd2.2 hsub2 _ (ReplaceAll_single_no_tag _ x hx1 t htag)
        (ReplaceAll_single_within _ _ x (hx2 _ (by decide)) t hlt)
        (ReplaceAll_single_within _ _ x (hx2 _ (by decide)) t hgt) ?_
      intro hmem
      have := hamp (List.mem_cons_of_mem _ hmem)
      exact ⟨ReplaceAll_single_within _ _ x (hx2 _ (by decide)) t this.1,
        ReplaceAll_single_within _ _ x (hx2 _ (by decide)) t this.2⟩
    have hnoop : ¬ e.1 <:+: t →
        ¬ List.Sublist ['<', '>'] (decodeEntities es (ReplaceAll t e.1 e.2)) := by
      intro habs
      rw [ReplaceAll_absent _ _ _ habs]
      refine ih hnd2.2 hsub2 t htag hlt hgt (fun hmem => hamp (List.mem_cons_of_mem _ hmem))
    simp only [constants.HTMLEntities, List.mem_cons, List.mem_singleton, List.not_mem_nil,
      or_false] at he
    rcases he with rfl | rfl | rfl | rfl | rfl | rfl
    · have h2 := hamp (List.mem_cons_self _ _)
      refine ih hnd2.2 hsub2 _ (ReplaceAll_single_no_tag _ '&' (by decide) t htag) ?_ ?_
        (fun hmem => absurd hmem hnd2.1)
      · intro hi
        rcases unescape_within "lt;".toList (by decide) t 0 hi with h3 | h3
        · exact hlt h3
        · exact h2.1 h3
      · intro hi
        rcases unescape_within "gt;".toList (by decide) t 0 hi with h3 | h3
        · exact hgt h3
        · exact h2.2 h3
    · exact hnoop hlt
    · exact hnoop hgt
    · exact hquote (Char.ofNat 34) rfl (by decide) (by decide)
    · exact hquote (Char.ofNat 39) rfl (by decide) (by decide)
    · exact hquote (Char.ofNat 39) rfl (by decide) (by decide)

/-- C5 (as amended): when the tag-stripped input contains none of `&lt;`,
`&gt;`, `&amp;lt;` and `&amp;gt;`, then in every iteration order of the entity
table the outputs of `cleanTitle` and `cleanDescription` contain no `<`
followed later by a `>`, hence no substring matching the tag pattern. -/
theorem cleaners_remove_tags (order : List (List Char × List Char)) (s : List Char)
    (horder : order.Perm constants.HTMLEntities)
    (hent : ∀ p ∈ escapedAngles, ¬ p <:+: replaceAllMatches matchHTMLTag [] s) :
    (¬ List.Sublist ['<', '>'] (cleanTitle order s) ∧ ¬ ContainsTag (cleanTitle order s)) ∧
      (¬ List.Sublist ['<', '>'] (cleanDescription order s) ∧
        ¬ ContainsTag (cleanDescription order s)) := by
  have hdec : ¬ List.Sublist ['<', '>']
      (decodeEntities order (replaceAllMatches matchHTMLTag [] s)) :=
    decodeEntities_no_tag order (horder.nodup_iff.2 (by decide)) (fun e he => horder.subset he) _
      (stripTags_no_tag s 0) (hent _ (by decide)) (hent _ (by decide))
      (fun _ => ⟨hent _ (by decide), hent _ (by decide)⟩)
  have hc : ¬ List.Sublist ['<', '>'] (TrimSpace (replaceAllMatches matchWhitespace [' ']
      (decodeEntities order (replaceAllMatches matchHTMLTag [] s)))) :=
    fun h => collapse_no_tag _ hdec (h.trans (TrimSpace_within _).sublist)
  have hT : ¬ List.Sublist ['<', '>'] (cleanTitle order s) :=
    fun h => hc (h.trans (replaceAllAux_sublist _ _ _))
  have hD : ¬ List.Sublist ['<', '>'] (cleanDescription order s) :=
    fun h => hc
      (h.trans ((TrimSpace_within _).sublist.trans (foldl_TrimSuffix_initial _ _).sublist))
  exact ⟨⟨hT, fun h => hT (tag_sublist_of_containsTag _ h)⟩,
    ⟨hD, fun h => hD (tag_sublist_of_containsTag _ h)⟩⟩

theorem cleaners_remove_tags_witness :
    (¬ List.Sublist ['<', '>']
        (cleanTitle constants.HTMLEntities
          "<b>L&#x27;or &quot;negre&quot; &amp; Treva</b> <i>Durada: 55 min</i>".toList) ∧
      ¬ ContainsTag
        (cleanTitle constants.HTMLEntities
          "<b>L&#x27;or &quot;negre&quot; &amp; Treva</b> <i>Durada: 55 min</i>".toList)) ∧
      (¬ List.Sublist ['<', '>']
        (cleanDescription constants.HTMLEntities
          "<b>L&#x27;or &quot;negre&quot; &amp; Treva</b> <i>Durada: 55 min</i>".toList) ∧
      ¬ ContainsTag
        (cleanDescription constants.HTMLEntities
          "<b>L&#x27;or &quot;negre&quot; &amp; Treva</b> <i>Durada: 55 min</i>".toList)) :=
  cleaners_remove_tags constants.HTMLEntities
    "<b>L&#x27;or &quot;negre&quot; &amp; Treva</b> <i>Durada: 55 min</i>".toList
    (List.Perm.refl _) (by decide)

/-- C5 (counterexample): an escaped tag survives both cleaners as a tag: the
entity loop, which runs after the tag removal, turns `&lt;` and `&gt;` into
`<` and `>`. -/
theorem cleaners_keep_escaped_tag :
    cleanTitle constants.HTMLEntities "&lt;b&gt;Muret&lt;/b&gt;".toList = "<b>Muret</b>".toList ∧
      cleanDescription constants.HTMLEntities "&lt;b&gt;Muret&lt;/b&gt;".toList =
        "<b>Muret</b>".toList ∧
      ContainsTag "<b>Muret</b>".toList :=
  ⟨by decide, by decide, [], _, rfl, by decide⟩

/-- Why the doubly escaped spellings count: when the loop visits `&amp;` before
`&lt;` and `&gt;`, as in the order of the table, it unescapes twice in one
pass; in the reverse order it does not. -/
theorem cleaners_unescape_twice :
    cleanTitle constants.HTMLEntities "&amp;lt;b&amp;gt;".toList = "<b>".toList ∧
      cleanTitle constants.HTMLEntities.reverse "&amp;lt;b&amp;gt;".toList =
        "&lt;b&gt;".toList := by
  decide

theorem drop_length_takeWhile (p : Char → Bool) (l : List Char) :
    l.drop (l.takeWhile p).length = l.dropWhile p := by
  have h := List.drop_left (l.takeWhile p) (l.dropWhile p)
  rwa [List.takeWhile_append_dropWhile] at h

theorem matchWhitespace_cons_space (c : Char) (cs : List Char) (h : isPerlSpace c = true) :
    matchWhitespace (c :: cs) = some ((cs.takeWhile isPerlSpace).length + 1) := by
  simp [matchWhitespace, List.takeWhile_cons, h]

theorem matchWhitespace_cons_other (c : Char) (cs : List Char) (h : isPerlSpace c = false) :
    matchWhitespace (c :: cs) = none := by
  simp [matchWhitespace, List.takeWhile_cons, h]

theorem collapseAux_cons_space (c : Char) (cs : List Char) (h : isPerlSpace c = true) :
    replaceAllAux matchWhitespace [' '] 0 (c :: cs) =
      ' ' :: replaceAllAux matchWhitespace [' '] (cs.takeWhile isPerlSpace).length cs := by
  simp only [replaceAllAux, matchWhitespace_cons_space c cs h]
  rfl

theorem collapseAux_cons_other (c : Char) (cs : List Char) (h : isPerlSpace c = false) :
    replaceAllAux matchWhitespace [' '] 0 (c :: cs) =
      c :: replaceAllAux matchWhitespace [' '] 0 cs := by
  simp only [replaceAllAux, matchWhitespace_cons_other c cs h]

theorem collapseAux_head (s : List Char) : ∀ k,
    (∀ x ∈ (s.drop k).head?, isPerlSpace x = false) →
    ∀ x ∈ (replaceAllAux matchWhitespace [' '] k s).head?, isPerlSpace x = false := by
  induction s with
  | nil => intro k _ x hx; cases k <;> simp [replaceAllAux] at hx
  | cons c cs ih =>
    intro k h
    cases k with
    | succ k =>
      simp only [replaceAllAux]
      exact ih k (by simpa using h)
    | zero =>
      have hc : isPerlSpace c = false := h c (by simp)
      rw [collapseAux_cons_other c cs hc]
      intro x hx
      simp only [List.head?_cons, Option.mem_def, Option.some.injEq] at hx
      rw [← hx]; exact hc

theorem collapseAux_collapsed (s : List Char) :
    ∀ k, Collapsed (replaceAllAux matchWhitespace [' '] k s) := by
  induction s with
  | nil => intro k; cases k <;> simp [replaceAllAux, Collapsed]
  | cons c cs ih =>
    intro k
    cases k with
    | succ k => simp only [replaceAllAux]; exact ih k
    | zero =>
      cases hc : isPerlSpace c with
      | false =>
        rw [collapseAux_cons_other c cs hc]
        exact ⟨fun h => absurd h (by simp [hc]), ih 0⟩
      | true =>
        rw [collapseAux_cons_space c cs hc]
        refine ⟨fun _ => ⟨rfl, ?_⟩, ih _⟩
        apply collapseAux_head
        rw [drop_length_takeWhile]
        intro x hx
        have := List.head?_dropWhile_not isPerlSpace cs
        rw [Option.mem_def.1 hx] at this
        simpa using this

theorem collapse_of_collapsed (t : List Char) (h : Collapsed t) :
    replaceAllMatches matchWhitespace [' '] t = t := by
  unfold replaceAllMatches
  induction t with
  | nil => rfl
  | cons c cs ih =>
    obtain ⟨h1, h2⟩ := h
    cases hc : isPerlSpace c with
    | false => rw [collapseAux_cons_other c cs hc, ih h2]
    | true =>
      obtain ⟨rfl, hh⟩ := h1 hc
      have ht : cs.takeWhile isPerlSpace = [] := by
        cases cs with
        | nil => rfl
        | cons x xs =>
          have := hh x (by simp)
          simp [List.takeWhile_cons, this]
      rw [collapseAux_cons_space _ cs hc, ht]
      simp only [List.length_nil]
      rw [ih h2]

theorem Collapsed.left (p q : List Char) (h : Collapsed (p ++ q)) : Collapsed p := by
  induction p with
  | nil => trivial
  | cons c cs ih =>
    obtain ⟨h1, h2⟩ := h
    refine ⟨fun hc => ⟨(h1 hc).1, ?_⟩, ih h2⟩
    intro x hx
    apply (h1 hc).2 x
    cases cs with
    | nil => simp at hx
    | cons y ys => simpa using hx

theorem Collapsed.right (p q : List Char) (h : Collapsed (p ++ q)) : Collapsed q := by
  induction p with
  | nil => exact h
  | cons c cs ih => exact ih h.2

theorem Collapsed.within (t s : List Char) (hs : Collapsed s) (h : t <:+: s) : Collapsed t := by
  obtain ⟨p, q, rfl⟩ := h
  exact Collapsed.right p t (Collapsed.left (p ++ t) q hs)

theorem Collapsed.space (s : List Char) (hs : Collapsed s) :
    ∀ c ∈ s, isPerlSpace c = true → c = ' ' := by
  induction s with
  | nil => intro c hc; cases hc
  | cons x xs ih =>
    intro c hc hsp
    rcases List.mem_cons.1 hc with rfl | h
    · exact (hs.1 hsp).1
    · exact ih hs.2 c h hsp

/-! ### `strings.TrimSpace` -/

theorem TrimSpace_head (s : List Char) :
    ∀ x ∈ (TrimSpace s).head?, IsSpace x = false := by
  intro x hx
  unfold TrimSpace at hx
  obtain ⟨r, hr⟩ := List.rdropWhile_prefix IsSpace (s.dropWhile IsSpace)
  have h := List.head?_dropWhile_not IsSpace s
  rw [← hr] at h
  cases hl : List.rdropWhile IsSpace (List.dropWhile IsSpace s) with
  | nil => rw [hl] at hx; simp at hx
  | cons y ys =>
    rw [hl] at hx h
    simp only [List.head?_cons, Option.mem_def, Option.some.injEq] at hx
    subst hx
    simpa using h

theorem TrimSpace_last (s : List Char) :
    ∀ x ∈ (TrimSpace s).getLast?, IsSpace x = false := by
  intro x hx
  have hne : TrimSpace s ≠ [] := by
    rintro h0; rw [h0] at hx; simp at hx
  have h := List.rdropWhile_eq_self_iff.1
    (List.rdropWhile_idempotent IsSpace (s.dropWhile IsSpace)) hne
  have hx' : (TrimSpace s).getLast hne = x := by
    rw [List.getLast?_eq_getLast _ hne] at hx
    simpa using hx
  rw [← hx']
  simpa using h

theorem TrimSpace_of_trimmed (t : List Char) (hh : ∀ x ∈ t.head?, IsSpace x = false)
    (hl : ∀ x ∈ t.getLast?, IsSpace x = false) : TrimSpace t = t := by
  unfold TrimSpace
  have h1 : t.dropWhile IsSpace = t := by
    cases t with
    | nil => rfl
    | cons c cs =>
      have := hh c (by simp)
      simp [List.dropWhile_cons, this]
  rw [h1]
  refine List.rdropWhile_eq_self_iff.2 (fun h => ?_)
  have := hl (t.getLast h) (by rw [List.getLast?_eq_getLast _ h]; simp)
  simp [this]

theorem TrimSpace_idempotent (s : List Char) : TrimSpace (TrimSpace s) = TrimSpace s :=
  TrimSpace_of_trimmed _ (TrimSpace_head s) (TrimSpace_last s)

/-! ### The duration pattern -/

theorem stripDuration_cons_match (c : Char) (cs : List Char)
    (h : matchesDuration (c :: cs) = true) :
    replaceAllAux matchDuration [] 0 (c :: cs) = [] := by
  have hm : matchDuration (c :: cs) = some (cs.length + 1) := by
    simp [matchDuration, h]
  simp only [replaceAllAux, hm, List.nil_append]
  exact replaceAllAux_skip _ _ _ _ (Nat.le_refl _)

theorem stripDuration_cons_other (c : Char) (cs : List Char)
    (h : matchesDuration (c :: cs) = false) :
    replaceAllAux matchDuration [] 0 (c :: cs) = c :: replaceAllAux matchDuration [] 0 cs := by
  have hm : matchDuration (c :: cs) = none := by
    simp [matchDuration, h]
  simp only [replaceAllAux, hm]

theorem matchesDuration_cons_space (c : Char) (cs : List Char) (h : isPerlSpace c = true) :
    matchesDuration (c :: cs) = matchesDuration cs := by
  simp only [matchesDuration, List.dropWhile_cons, h, if_true]

theorem afterLiteral_append (lit a r y : List Char) (h : afterLiteral lit a = some r) :
    afterLiteral lit (a ++ y) = some (r ++ y) := by
  unfold afterLiteral at h ⊢
  split at h
  · rename_i hp
    have hpre : lit <+: a := List.isPrefixOf_iff_prefix.1 hp
    have hle : lit.length ≤ a.length := hpre.length_le
    rw [if_pos (List.isPrefixOf_iff_prefix.2 (hpre.trans (List.prefix_append a y)))]
    simp only [Option.some.injEq] at h ⊢
    rw [← h, List.drop_append_of_le_length hle]
  · cases h

theorem afterLiteral_ne_nil (lit a r : List Char) (h : afterLiteral lit a = some r)
    (hlit : lit ≠ []) : a ≠ [] := by
  rintro rfl
  unfold afterLiteral at h
  cases lit with
  | nil => exact hlit rfl
  | cons x xs => simp [List.isPrefixOf] at h

theorem dropWhile_append_of_ne_nil (p : Char → Bool) (a y : List Char)
    (h : a.dropWhile p ≠ []) : (a ++ y).dropWhile p = a.dropWhile p ++ y := by
  rw [List.dropWhile_append]
  cases hd : a.dropWhile p with
  | nil => exact absurd hd h
  | cons x xs => simp

theorem takeWhile_append_nonempty (p : Char → Bool) (a y : List Char)
    (h : (a.takeWhile p).isEmpty = false) : ((a ++ y).takeWhile p).isEmpty = false := by
  cases a with
  | nil => simp at h
  | cons c cs =>
    by_cases hc : p c = true
    · simp [List.takeWhile_cons, hc]
    · simp [List.takeWhile_cons, hc] at h

theorem matchesDuration_append (x y : List Char) (h : matchesDuration x = true)
    (hy : Char.ofNat 10 ∉ y) : matchesDuration (x ++ y) = true := by
  unfold matchesDuration at h
  cases h1 : afterLiteral "Durada:".toList (x.dropWhile isPerlSpace) with
  | none => rw [h1] at h; cases h
  | some r2 =>
    rw [h1] at h
    simp only at h
    cases h3 : ((r2.dropWhile isPerlSpace).takeWhile isPerlDigit).isEmpty with
    | true => rw [h3] at h; simp at h
    | false =>
      rw [h3] at h
      simp only [Bool.false_eq_true, if_false] at h
      cases h4 : afterLiteral "min".toList
          (((r2.dropWhile isPerlSpace).dropWhile isPerlDigit).dropWhile isPerlSpace) with
      | none => rw [h4] at h; cases h
      | some r5 =>
        rw [h4] at h
        simp only at h
        have n1 : x.dropWhile isPerlSpace ≠ [] := afterLiteral_ne_nil _ _ _ h1 (by decide)
        have n3 : r2.dropWhile isPerlSpace ≠ [] := by
          intro h0; rw [h0] at h3; simp at h3
        have n4 : ((r2.dropWhile isPerlSpace).dropWhile isPerlDigit).dropWhile isPerlSpace ≠ [] :=
          afterLiteral_ne_nil _ _ _ h4 (by decide)
        have n5 : (r2.dropWhile isPerlSpace).dropWhile isPerlDigit ≠ [] := by
          intro h0; rw [h0] at n4; exact n4 rfl
        have e1 : afterLiteral "Durada:".toList ((x ++ y).dropWhile isPerlSpace) =
            some (r2 ++ y) := by
          rw [dropWhile_append_of_ne_nil _ _ _ n1]
          exact afterLiteral_append _ _ _ _ h1
        have e2 : (r2 ++ y).dropWhile isPerlSpace = r2.dropWhile isPerlSpace ++ y :=
          dropWhile_append_of_ne_nil _ _ _ n3
        have e3 : ((r2.dropWhile isPerlSpace ++ y).takeWhile isPerlDigit).isEmpty = false :=
          takeWhile_append_nonempty _ _ _ h3
        have e4 : afterLiteral "min".toList
            (((r2.dropWhile isPerlSpace ++ y).dropWhile isPerlDigit).dropWhile isPerlSpace) =
            some (r5 ++ y) := by
          rw [dropWhile_append_of_ne_nil _ _ _ n5, dropWhile_append_of_ne_nil _ _ _ n4]
          exact afterLiteral_append _ _ _ _ h4
        have e5 : (r5 ++ y).contains (Char.ofNat 10) = false := by
          simp only [Bool.not_eq_true', List.contains_eq_any_beq] at h ⊢
          simp only [List.any_append, h, Bool.false_or]
          simp only [List.any_eq_false, beq_iff_eq]
          exact fun x hx he => hy (he ▸ hx)
        unfold matchesDuration
        simp only [e1, e2, e3, e4, e5, Bool.false_eq_true, if_false, Bool.not_false]

theorem stripDuration_initial (d : List Char) :
    ∃ rest, d = replaceAllAux matchDuration [] 0 d ++ rest := by
  have h : ∀ (k : Nat), replaceAllAux matchDuration [] k [] = [] := by
    intro k; cases k <;> rfl
  induction d with
  | nil => exact ⟨[], by simp [h]⟩
  | cons c cs ih =>
    cases hm : matchesDuration (c :: cs) with
    | true => exact ⟨c :: cs, by rw [stripDuration_cons_match c cs hm]; rfl⟩
    | false =>
      obtain ⟨rest, hr⟩ := ih
      refine ⟨rest, ?_⟩
      rw [stripDuration_cons_other c cs hm, List.cons_append, ← hr]

theorem stripDuration_nil_cases (cs : List Char)
    (h : replaceAllAux matchDuration [] 0 cs = []) : cs = [] ∨ matchesDuration cs = true := by
  cases cs with
  | nil => exact Or.inl rfl
  | cons x xs =>
    right
    cases hm : matchesDuration (x :: xs) with
    | true => rfl
    | false => rw [stripDuration_cons_other x xs hm] at h; cases h

theorem stripDuration_last (d : List Char)
    (hd : ∀ x ∈ d.getLast?, isPerlSpace x = false) :
    ∀ x ∈ (replaceAllAux matchDuration [] 0 d).getLast?, isPerlSpace x = false := by
  induction d with
  | nil => intro x hx; simp [replaceAllAux] at hx
  | cons c cs ih =>
    cases hm : matchesDuration (c :: cs) with
    | true => rw [stripDuration_cons_match c cs hm]; intro x hx; simp at hx
    | false =>
      rw [stripDuration_cons_other c cs hm]
      cases hsd : replaceAllAux matchDuration [] 0 cs with
      | nil =>
        intro x hx
        simp only [List.getLast?_singleton, Option.mem_def, Option.some.injEq] at hx
        subst hx
        rcases stripDuration_nil_cases cs hsd with rfl | hcs
        · exact hd c (by simp)
        · cases hc : isPerlSpace c with
          | false => rfl
          | true =>
            rw [matchesDuration_cons_space c cs hc, hcs] at hm
            cases hm
      | cons y ys =>
        rw [List.getLast?_cons_cons, ← hsd]
        apply ih
        cases cs with
        | nil => simp [replaceAllAux] at hsd
        | cons x xs => simpa [List.getLast?_cons_cons] using hd

theorem stripDuration_no_match (d : List Char) (hd : Char.ofNat 10 ∉ d) :
    ∀ t, t <:+ replaceAllAux matchDuration [] 0 d → matchesDuration t = false := by
  induction d with
  | nil =>
    intro t ht
    have : t = [] := by simpa [replaceAllAux] using ht
    subst this; decide
  | cons c cs ih =>
    have hcs : Char.ofNat 10 ∉ cs := fun h => hd (List.mem_cons_of_mem _ h)
    cases hm : matchesDuration (c :: cs) with
    | true =>
      rw [stripDuration_cons_match c cs hm]
      intro t ht
      have : t = [] := by simpa using ht
      subst this; decide
    | false =>
      rw [stripDuration_cons_other c cs hm]
      intro t ht
      rcases List.suffix_cons_iff.1 ht with rfl | h
      · obtain ⟨rest, hr⟩ := stripDuration_initial cs
        by_contra hne
        have htrue : matchesDuration (c :: replaceAllAux matchDuration [] 0 cs) = true := by
          simpa using hne
        have hrest : Char.ofNat 10 ∉ rest := by
          intro h
          apply hcs
          rw [hr]
          exact List.mem_append_right _ h
        have := matchesDuration_append _ rest htrue hrest
        rw [List.cons_append, ← hr, hm] at this
        cases this
      · exact ih hcs t h

theorem stripDuration_of_no_match (t : List Char)
    (h : ∀ r, r <:+ t → matchesDuration r = false) :
    replaceAllMatches matchDuration [] t = t := by
  unfold replaceAllMatches
  induction t with
  | nil => rfl
  | cons c cs ih =>
    rw [stripDuration_cons_other c cs (h _ (List.suffix_refl _)),
      ih (fun r hr => h r (hr.trans (List.suffix_cons c cs)))]

/-! ### The tag pattern on tag-free text -/

theorem stripTags_of_no_tag (t : List Char) (h : ¬ List.Sublist ['<', '>'] t) :
    replaceAllMatches matchHTMLTag [] t = t := by
  unfold replaceAllMatches
  induction t with
  | nil => rfl
  | cons c cs ih =>
    have hm : matchHTMLTag (c :: cs) = none := by
      simp only [matchHTMLTag]
      rw [if_neg]
      rintro ⟨rfl, hmem⟩
      exact h ((List.singleton_sublist.2 hmem).cons₂ _)
    simp only [replaceAllAux, hm]
    rw [ih (fun hs => h (hs.trans (List.sublist_cons_self c cs)))]

/-! ### Whitespace collapsing creates no occurrence of a space-free string -/

theorem collapseAux_initial (e : List Char) (he : ∀ c ∈ e, isPerlSpace c = false) :
    ∀ s : List Char, e <+: replaceAllAux matchWhitespace [' '] 0 s → e <+: s := by
  induction e with
  | nil => intro s _; exact List.nil_prefix
  | cons x xs ih =>
    intro s h
    have hx : isPerlSpace x = false := he x (List.mem_cons_self _ _)
    have hxs : ∀ c ∈ xs, isPerlSpace c = false := fun c hc => he c (List.mem_cons_of_mem _ hc)
    cases s with
    | nil => simp [replaceAllAux] at h
    | cons c cs =>
      cases hc : isPerlSpace c with
      | true =>
        rw [collapseAux_cons_space c cs hc] at h
        rcases List.prefix_cons_iff.1 h with h0 | ⟨t, ht, _⟩
        · cases h0
        · simp only [List.cons.injEq] at ht
          rw [ht.1] at hx
          exact absurd hx (by decide)
      | false =>
        rw [collapseAux_cons_other c cs hc] at h
        rcases List.prefix_cons_iff.1 h with h0 | ⟨t, ht, hpre⟩
        · cases h0
        · simp only [List.cons.injEq] at ht
          obtain ⟨rfl, rfl⟩ := ht
          exact List.prefix_cons_iff.2 (Or.inr ⟨xs, rfl, ih hxs cs hpre⟩)

theorem collapseAux_within (e : List Char) (he : ∀ c ∈ e, isPerlSpace c = false) :
    ∀ (s : List Char) (k : Nat), e <:+: replaceAllAux matchWhitespace [' '] k s → e <:+: s := by
  intro s
  induction s with
  | nil =>
    intro k h
    have : replaceAllAux matchWhitespace [' '] k [] = [] := by cases k <;> rfl
    rwa [this] at h
  | cons c cs ih =>
    intro k h
    cases k with
    | succ k =>
      simp only [replaceAllAux] at h
      exact (ih k h).trans (List.suffix_cons c cs).isInfix
    | zero =>
      cases hc : isPerlSpace c with
      | true =>
        rw [collapseAux_cons_space c cs hc] at h
        rcases List.infix_cons_iff.1 h with h1 | h1
        · rcases List.prefix_cons_iff.1 h1 with rfl | ⟨t, rfl, _⟩
          · exact List.nil_infix
          · exact absurd (he ' ' (List.mem_cons_self _ _)) (by decide)
        · exact (ih _ h1).trans (List.suffix_cons c cs).isInfix
      | false =>
        have h' := h
        rw [collapseAux_cons_other c cs hc] at h'
        rcases List.infix_cons_iff.1 h' with h1 | h1
        · rw [← collapseAux_cons_other c cs hc] at h1
          exact (collapseAux_initial e he _ h1).isInfix
        · exact (ih _ h1).trans (List.suffix_cons c cs).isInfix

theorem entity_space_free :
    ∀ e ∈ constants.HTMLEntities, ∀ c ∈ e.1, isPerlSpace c = false := by
  decide

theorem collapse_mem (s : List Char) :
    ∀ c ∈ replaceAllMatches matchWhitespace [' '] s, c = ' ' ∨ c ∈ s :=
  replaceAllAux_forall matchWhitespace [' '] (fun c => c = ' ' ∨ c ∈ s) (fun c => c ∈ s)
    (fun _ hx => Or.inl (List.mem_singleton.1 hx)) (fun _ _ h _ => Or.inr h) s 0 (fun _ h => h)

theorem isPerlSpace_IsSpace (c : Char) (h : isPerlSpace c = true) : IsSpace c = true := by
  simp only [isPerlSpace, Bool.or_eq_true, beq_iff_eq] at h
  simp only [IsSpace, Bool.or_eq_true, Bool.and_eq_true, decide_eq_true_eq, beq_iff_eq]
  omega

theorem head?_of_initial (t d : List Char) (h : t <+: d) :
    ∀ x ∈ t.head?, x ∈ d.head? := by
  intro x hx
  obtain ⟨r, rfl⟩ := h
  cases t with
  | nil => simp at hx
  | cons y ys => simpa using hx

/-! ### Idempotence of the cleaners -/

theorem TrimSuffix_of_not_ending (t suf : List Char) (h : ¬ suf <:+ t) : TrimSuffix t suf = t := by
  unfold TrimSuffix
  rw [if_neg]
  intro hs
  exact h (List.isSuffixOf_iff_suffix.1 hs)

theorem foldl_TrimSuffix_of_not_ending (sufs : List (List Char)) (t : List Char)
    (h : ∀ suf ∈ sufs, ¬ suf <:+ t) : sufs.foldl TrimSuffix t = t := by
  induction sufs with
  | nil => rfl
  | cons x xs ih =>
    simp only [List.foldl_cons]
    rw [TrimSuffix_of_not_ending t x (h x (List.mem_cons_self _ _))]
    exact ih (fun suf hs => h suf (List.mem_cons_of_mem _ hs))

theorem cleanTitle_steps (order : List (List Char × List Char)) (t : List Char) :
    cleanTitle order t = replaceAllMatches matchDuration [] (TrimSpace
      (replaceAllMatches matchWhitespace [' ']
        (decodeEntities order (replaceAllMatches matchHTMLTag [] t)))) := rfl

theorem cleanDescription_steps (order : List (List Char × List Char)) (t : List Char) :
    cleanDescription order t = TrimSpace (constants.TextSuffixes.foldl TrimSuffix (TrimSpace
      (replaceAllMatches matchWhitespace [' ']
        (decodeEntities order (replaceAllMatches matchHTMLTag [] t))))) := rfl

/-! ### Lengths through the cleaning steps -/

theorem replaceAllAux_length_le (m : List Char → Option Nat) (repl : List Char)
    (hrepl : repl.length ≤ 1) :
    ∀ (s : List Char) (k : Nat), (replaceAllAux m repl k s).length ≤ s.length := by
  intro s
  induction s with
  | nil => intro k; cases k <;> simp [replaceAllAux]
  | cons c cs ih =>
    intro k
    cases k with
    | succ k =>
      simp only [replaceAllAux, List.length_cons]
      exact Nat.le_succ_of_le (ih k)
    | zero =>
      simp only [replaceAllAux]
      split
      · rename_i n _
        have := ih n
        simp only [List.length_append, List.length_cons]
        omega
      · have := ih 0
        simp only [List.length_cons]
        omega

theorem ReplaceAll_length_lt (old : List Char) (x : Char) (hold : 2 ≤ old.length) :
    ∀ s : List Char, old <:+: s → (ReplaceAll s old [x]).length < s.length := by
  intro s
  induction s with
  | nil =>
    intro h
    have := List.eq_nil_of_infix_nil h
    rw [this] at hold
    simp at hold
  | cons c cs ih =>
    intro h
    unfold ReplaceAll replaceAllMatches at ih ⊢
    cases hm : matchLiteral old (c :: cs) with
    | none =>
      have hR : replaceAllAux (matchLiteral old) [x] 0 (c :: cs) =
          c :: replaceAllAux (matchLiteral old) [x] 0 cs := by
        simp only [replaceAllAux, hm]
      rw [hR]
      rcases List.infix_cons_iff.1 h with h1 | h1
      · exfalso
        unfold matchLiteral at hm
        rw [if_pos (List.isPrefixOf_iff_prefix.2 h1)] at hm
        cases hm
      · have := ih h1
        simp only [List.length_cons]
        omega
    | some n =>
      obtain ⟨hn, hcs⟩ := matchLiteral_some _ _ _ hm
      obtain ⟨j, rfl⟩ : ∃ j, n = j + 1 := ⟨n - 1, by omega⟩
      have hR : replaceAllAux (matchLiteral old) [x] 0 (c :: cs) =
          x :: replaceAllAux (matchLiteral old) [x] j cs := by
        simp only [replaceAllAux, hm, List.singleton_append]
      rw [hR, replaceAllAux_drop]
      have h1 := replaceAllAux_length_le (matchLiteral old) [x] (by simp) (cs.drop j) 0
      have h2 : old.length ≤ (c :: cs).length := h.length_le
      simp only [List.length_cons, List.length_drop] at h1 h2 ⊢
      omega

theorem decodeEntities_length_le (l : List (List Char × List Char))
    (hl : ∀ e ∈ l, e.2.length ≤ 1) :
    ∀ u : List Char, (decodeEntities l u).length ≤ u.length := by
  induction l with
  | nil => intro u; exact Nat.le_refl _
  | cons e es ih =>
    intro u
    have h1 := ih (fun x hx => hl x (List.mem_cons_of_mem _ hx)) (ReplaceAll u e.1 e.2)
    have h2 := replaceAllAux_length_le (matchLiteral e.1) e.2 (hl e (List.mem_cons_self _ _)) u 0
    exact h1.trans h2

/-- An entity loop that leaves the length alone found no entity. -/
theorem decodeEntities_absent_of_length (l : List (List Char × List Char))
    (hl : ∀ e ∈ l, 2 ≤ e.1.length ∧ ∃ x, e.2 = [x]) :
    ∀ u : List Char, (decodeEntities l u).length = u.length → ∀ e ∈ l, ¬ e.1 <:+: u := by
  induction l with
  | nil => intro u _ e he; cases he
  | cons e es ih =>
    intro u hlen
    have hes : ∀ x ∈ es, 2 ≤ x.1.length ∧ ∃ y, x.2 = [y] :=
      fun x hx => hl x (List.mem_cons_of_mem _ hx)
    have h1 := decodeEntities_length_le es
      (fun x hx => by obtain ⟨_, y, hy⟩ := hes x hx; rw [hy]; exact Nat.le_refl _)
      (ReplaceAll u e.1 e.2)
    have hstep : decodeEntities (e :: es) u = decodeEntities es (ReplaceAll u e.1 e.2) := rfl
    rw [hstep] at hlen
    obtain ⟨h2, x, hx⟩ := hl e (List.mem_cons_self _ _)
    have habs : ¬ e.1 <:+: u := by
      intro hi
      have := ReplaceAll_length_lt e.1 x h2 u hi
      rw [hx] at hlen h1
      omega
    rw [ReplaceAll_absent _ _ _ habs] at hlen
    intro e' he'
    rcases List.mem_cons.1 he' with rfl | h'
    · exact habs
    · exact ih hes u hlen e' h'

theorem foldl_TrimSuffix_not_ending_of_length (sufs : List (List Char))
    (hne : ∀ suf ∈ sufs, suf ≠ []) :
    ∀ u : List Char, (sufs.foldl TrimSuffix u).length = u.length → ∀ suf ∈ sufs, ¬ suf <:+ u := by
  induction sufs with
  | nil => intro u _ suf hs; cases hs
  | cons x xs ih =>
    intro u hlen
    simp only [List.foldl_cons] at hlen
    have h1 := (foldl_TrimSuffix_initial xs (TrimSuffix u x)).length_le
    have habs : ¬ x <:+ u := by
      intro hs
      have hx : 0 < x.length := List.length_pos.2 (hne x (List.mem_cons_self _ _))
      have h2 : (TrimSuffix u x).length = u.length - x.length := by
        unfold TrimSuffix
        rw [if_pos (List.isSuffixOf_iff_suffix.2 hs), List.length_take]
        omega
      have := hs.length_le
      omega
    rw [TrimSuffix_of_not_ending u x habs] at hlen
    intro suf hs
    rcases List.mem_cons.1 hs with rfl | h'
    · exact habs
    · exact ih (fun y hy => hne y (List.mem_cons_of_mem _ hy)) u hlen suf h'

theorem table_shape : ∀ e ∈ constants.HTMLEntities, 2 ≤ e.1.length ∧ ∃ x, e.2 = [x] := by
  intro e he
  simp only [constants.HTMLEntities, List.mem_cons, List.mem_singleton, List.not_mem_nil,
    or_false] at he
  rcases he with rfl | rfl | rfl | rfl | rfl | rfl <;> exact ⟨by decide, _, rfl⟩

/-- The first three steps of a cleaner change nothing exactly on the texts
without tag and without entity, when the text is whitespace-collapsed. -/
theorem first_steps_fixed (order : List (List Char × List Char)) (t : List Char)
    (horder : order.Perm constants.HTMLEntities) (hcol : Collapsed t)
    (ha : ¬ List.Sublist ['<', '>'] t) (hb : ∀ e ∈ constants.HTMLEntities, ¬ e.1 <:+: t) :
    replaceAllMatches matchWhitespace [' ']
      (decodeEntities order (replaceAllMatches matchHTMLTag [] t)) = t := by
  rw [stripTags_of_no_tag t ha,
    decodeEntities_absent order t (fun e he => hb e (horder.subset he)),
    collapse_of_collapsed t hcol]

/-- Conversely, when the first three steps keep the length of a
whitespace-collapsed text, it holds no tag and no entity. -/
theorem first_steps_length (order : List (List Char × List Char)) (t : List Char)
    (horder : order.Perm constants.HTMLEntities)
    (hlen : t.length ≤ (replaceAllMatches matchWhitespace [' ']
      (decodeEntities order (replaceAllMatches matchHTMLTag [] t))).length) :
    ¬ List.Sublist ['<', '>'] t ∧ ∀ e ∈ constants.HTMLEntities, ¬ e.1 <:+: t := by
  have hshape : ∀ e ∈ order, 2 ≤ e.1.length ∧ ∃ x, e.2 = [x] :=
    fun e he => table_shape e (horder.subset he)
  have h1 := replaceAllAux_length_le matchWhitespace [' '] (by simp)
    (decodeEntities order (replaceAllMatches matchHTMLTag [] t)) 0
  have h2 := decodeEntities_length_le order
    (fun e he => by obtain ⟨_, y, hy⟩ := hshape e he; rw [hy]; exact Nat.le_refl _)
    (replaceAllMatches matchHTMLTag [] t)
  have h3 := replaceAllAux_sublist matchHTMLTag t 0
  have hs : replaceAllMatches matchHTMLTag [] t = t :=
    h3.eq_of_length (Nat.le_antisymm h3.length_le (by
      simp only [replaceAllMatches] at hlen h1 h2 ⊢
      omega))
  have ha : ¬ List.Sublist ['<', '>'] t := by
    have := stripTags_no_tag t 0
    unfold replaceAllMatches at hs
    rwa [hs] at this
  rw [hs] at h1 h2 hlen
  refine ⟨ha, fun e he => ?_⟩
  exact decodeEntities_absent_of_length order hshape t
    (Nat.le_antisymm h2 (by simp only [replaceAllMatches] at hlen h1; omega)) e
    (horder.symm.subset he)

/-- The output of `cleanTitle` is whitespace-collapsed, starts with no white
space, and the duration step leaves it alone. -/
theorem cleanTitle_shape (o₁ : List (List Char × List Char)) (s : List Char) :
    Collapsed (cleanTitle o₁ s) ∧ (∀ x ∈ (cleanTitle o₁ s).head?, IsSpace x = false) ∧
      replaceAllMatches matchDuration [] (cleanTitle o₁ s) = cleanTitle o₁ s := by
  have hcol : Collapsed (replaceAllMatches matchWhitespace [' ']
      (decodeEntities o₁ (replaceAllMatches matchHTMLTag [] s))) := collapseAux_collapsed _ 0
  rw [cleanTitle_steps o₁ s]
  generalize replaceAllMatches matchWhitespace [' ']
    (decodeEntities o₁ (replaceAllMatches matchHTMLTag [] s)) = c at hcol
  have hd : Collapsed (TrimSpace c) := Collapsed.within _ _ hcol (TrimSpace_within c)
  obtain ⟨rest, hrest⟩ := stripDuration_initial (TrimSpace c)
  have hpre : replaceAllMatches matchDuration [] (TrimSpace c) <+: TrimSpace c :=
    ⟨rest, hrest.symm⟩
  have hnl : Char.ofNat 10 ∉ TrimSpace c := by
    intro h
    have := Collapsed.space _ hd _ h (by decide)
    exact absurd this (by decide)
  refine ⟨Collapsed.within _ _ hd hpre.isInfix, ?_, ?_⟩
  · intro x hx
    exact TrimSpace_head c x (head?_of_initial _ _ hpre x hx)
  · apply stripDuration_of_no_match
    intro r hr
    exact stripDuration_no_match (TrimSpace c) hnl r hr

/-- A second pass of `cleanTitle` changes nothing exactly when the first output
holds no tag, no entity, and ends in no white space. -/
theorem cleanTitle_fixed_iff (o₁ o₂ : List (List Char × List Char)) (s : List Char)
    (h₂ : o₂.Perm constants.HTMLEntities) :
    cleanTitle o₂ (cleanTitle o₁ s) = cleanTitle o₁ s ↔
      ¬ List.Sublist ['<', '>'] (cleanTitle o₁ s) ∧
        (∀ e ∈ constants.HTMLEntities, ¬ e.1 <:+: cleanTitle o₁ s) ∧
        ∀ x ∈ (cleanTitle o₁ s).getLast?, IsSpace x = false := by
  obtain ⟨hcol, hhead, hdur⟩ := cleanTitle_shape o₁ s
  generalize cleanTitle o₁ s = t at hcol hhead hdur
  constructor
  · intro hfix
    have hlen := congrArg List.length hfix
    rw [cleanTitle_steps o₂ t] at hlen hfix
    have h5 := (replaceAllAux_sublist matchDuration (TrimSpace (replaceAllMatches matchWhitespace
      [' '] (decodeEntities o₂ (replaceAllMatches matchHTMLTag [] t)))) 0).length_le
    have h4 := (TrimSpace_within (replaceAllMatches matchWhitespace
      [' '] (decodeEntities o₂ (replaceAllMatches matchHTMLTag [] t)))).length_le
    obtain ⟨ha, hb⟩ := first_steps_length o₂ t h₂ (by
      simp only [replaceAllMatches] at hlen h5 h4 ⊢
      omega)
    refine ⟨ha, hb, ?_⟩
    rw [first_steps_fixed o₂ t h₂ hcol ha hb] at hlen h5 hfix
    have htrim : TrimSpace t = t :=
      (TrimSpace_within t).eq_of_length (Nat.le_antisymm (TrimSpace_within t).length_le (by
        simp only [replaceAllMatches] at hlen h5
        omega))
    have := TrimSpace_last t
    rwa [htrim] at this
  · rintro ⟨ha, hb, hd⟩
    rw [cleanTitle_steps o₂ t, first_steps_fixed o₂ t h₂ hcol ha hb,
      TrimSpace_of_trimmed t hhead hd, hdur]

/-- The output of `cleanDescription` is whitespace-collapsed and trimmed. -/
theorem cleanDescription_shape (o₁ : List (List Char × List Char)) (s : List Char) :
    Collapsed (cleanDescription o₁ s) ∧ TrimSpace (cleanDescription o₁ s) = cleanDescription o₁ s := by
  have hcol : Collapsed (replaceAllMatches matchWhitespace [' ']
      (decodeEntities o₁ (replaceAllMatches matchHTMLTag [] s))) := collapseAux_collapsed _ 0
  rw [cleanDescription_steps o₁ s]
  refine ⟨Collapsed.within _ _ hcol ?_, TrimSpace_idempotent _⟩
  exact (TrimSpace_within _).trans
    ((foldl_TrimSuffix_initial _ _).isInfix.trans (TrimSpace_within _))

/-- A second pass of `cleanDescription` changes nothing exactly when the first
output holds no tag, no entity, and ends in no boilerplate suffix. -/
theorem cleanDescription_fixed_iff (o₁ o₂ : List (List Char × List Char)) (s : List Char)
    (h₂ : o₂.Perm constants.HTMLEntities) :
    cleanDescription o₂ (cleanDescription o₁ s) = cleanDescription o₁ s ↔
      ¬ List.Sublist ['<', '>'] (cleanDescription o₁ s) ∧
        (∀ e ∈ constants.HTMLEntities, ¬ e.1 <:+: cleanDescription o₁ s) ∧
        ∀ suf ∈ constants.TextSuffixes, ¬ suf <:+ cleanDescription o₁ s := by
  obtain ⟨hcol, htrim⟩ := cleanDescription_shape o₁ s
  generalize cleanDescription o₁ s = t at hcol htrim
  constructor
  · intro hfix
    have hlen := congrArg List.length hfix
    rw [cleanDescription_steps o₂ t] at hlen
    have h6 := (TrimSpace_within (constants.TextSuffixes.foldl TrimSuffix (TrimSpace
      (replaceAllMatches matchWhitespace [' ']
        (decodeEntities o₂ (replaceAllMatches matchHTMLTag [] t)))))).length_le
    have h5 := (foldl_TrimSuffix_initial constants.TextSuffixes (TrimSpace
      (replaceAllMatches matchWhitespace [' ']
        (decodeEntities o₂ (replaceAllMatches matchHTMLTag [] t))))).length_le
    have h4 := (TrimSpace_within (replaceAllMatches matchWhitespace
      [' '] (decodeEntities o₂ (replaceAllMatches matchHTMLTag [] t)))).length_le
    obtain ⟨ha, hb⟩ := first_steps_length o₂ t h₂ (by omega)
    refine ⟨ha, hb, ?_⟩
    rw [first_steps_fixed o₂ t h₂ hcol ha hb, htrim] at hlen h6 h5
    exact foldl_TrimSuffix_not_ending_of_length constants.TextSuffixes (by decide) t
      (Nat.le_antisymm h5 (by omega))
  · rintro ⟨ha, hb, hc⟩
    rw [cleanDescription_steps o₂ t, first_steps_fixed o₂ t h₂ hcol ha hb, htrim,
      foldl_TrimSuffix_of_not_ending constants.TextSuffixes t hc, htrim]

/-- C6 (as amended): a second pass of a cleaner over the output of a first
pass changes nothing exactly when that output contains no `<` followed later
by a `>`, contains none of the six entities of the table, and, for
`cleanTitle`, does not end in white space, for `cleanDescription`, does not end
in one of the boilerplate suffixes; the two passes may visit the entity map in
any orders. -/
theorem cleaners_idempotent (o₁ o₂ : List (List Char × List Char)) (s : List Char)
    (h₂ : o₂.Perm constants.HTMLEntities) :
    (cleanTitle o₂ (cleanTitle o₁ s) = cleanTitle o₁ s ↔
        ¬ List.Sublist ['<', '>'] (cleanTitle o₁ s) ∧
          (∀ e ∈ constants.HTMLEntities, ¬ e.1 <:+: cleanTitle o₁ s) ∧
          ∀ x ∈ (cleanTitle o₁ s).getLast?, IsSpace x = false) ∧
      (cleanDescription o₂ (cleanDescription o₁ s) = cleanDescription o₁ s ↔
        ¬ List.Sublist ['<', '>'] (cleanDescription o₁ s) ∧
          (∀ e ∈ constants.HTMLEntities, ¬ e.1 <:+: cleanDescription o₁ s) ∧
          ∀ suf ∈ constants.TextSuffixes, ¬ suf <:+ cleanDescription o₁ s) :=
  ⟨cleanTitle_fixed_iff o₁ o₂ s h₂, cleanDescription_fixed_iff o₁ o₂ s h₂⟩

theorem cleaners_idempotent_witness :
    constants.HTMLEntities.reverse.Perm constants.HTMLEntities ∧
      cleanTitle constants.HTMLEntities "<b>12. Pau &amp; Treva</b>  Durada: 55 min".toList =
        "12. Pau & Treva".toList ∧
      cleanTitle constants.HTMLEntities.reverse (cleanTitle constants.HTMLEntities
        "<b>12. Pau &amp; Treva</b>  Durada: 55 min".toList) =
        cleanTitle constants.HTMLEntities "<b>12. Pau &amp; Treva</b>  Durada: 55 min".toList ∧
      cleanDescription constants.HTMLEntities.reverse (cleanDescription constants.HTMLEntities
        "<b>12. Pau &amp; Treva</b>  Durada: 55 min".toList) =
        cleanDescription constants.HTMLEntities
          "<b>12. Pau &amp; Treva</b>  Durada: 55 min".toList :=
  have h := cleaners_idempotent constants.HTMLEntities constants.HTMLEntities.reverse
    "<b>12. Pau &amp; Treva</b>  Durada: 55 min".toList (List.reverse_perm _)
  ⟨List.reverse_perm _, by decide, h.1.2 (by decide), h.2.2 (by decide)⟩

/-- C6 (counterexample): a doubly escaped ampersand loses one level of escaping
at each pass of either cleaner, so the second pass is not a no-op. -/
theorem cleaners_not_idempotent :
    (cleanTitle constants.HTMLEntities "Pau &amp;amp; Treva".toList = "Pau &amp; Treva".toList ∧
      cleanTitle constants.HTMLEntities "Pau &amp; Treva".toList = "Pau & Treva".toList ∧
      cleanTitle constants.HTMLEntities
          (cleanTitle constants.HTMLEntities "Pau &amp;amp; Treva".toList) ≠
        cleanTitle constants.HTMLEntities "Pau &amp;amp; Treva".toList) ∧
      (cleanDescription constants.HTMLEntities "Pau &amp;amp; Treva".toList =
        "Pau &amp; Treva".toList ∧
      cleanDescription constants.HTMLEntities "Pau &amp; Treva".toList =
        "Pau & Treva".toList ∧
      cleanDescription constants.HTMLEntities
          (cleanDescription constants.HTMLEntities "Pau &amp;amp; Treva".toList) ≠
        cleanDescription constants.HTMLEntities "Pau &amp;amp; Treva".toList) := by
  decide

/-- How the output of `cleanTitle` can end in white space: a no-break space
(U+00A0) in front of the duration annotation is not of the class `\s`, is left
at the end by the first pass and trimmed by the second. -/
theorem cleanTitle_no_break_space :
    cleanTitle constants.HTMLEntities
        ("Muret".toList ++ [Char.ofNat 0xA0] ++ "Durada: 55 min".toList) =
        "Muret".toList ++ [Char.ofNat 0xA0] ∧
      cleanTitle constants.HTMLEntities ("Muret".toList ++ [Char.ofNat 0xA0]) =
        "Muret".toList := by
  decide

/-- How the output of `cleanDescription` can end in a boilerplate suffix: each
pass strips one suffix of each kind, so stacked suffixes take several passes. -/
theorem cleanDescription_stacked_suffixes :
    cleanDescription constants.HTMLEntities
        ("Muret".toList ++ "...Més".toList ++ "...Més".toList) =
        "Muret".toList ++ "...Més".toList ∧
      cleanDescription constants.HTMLEntities ("Muret".toList ++ "...Més".toList) =
        "Muret".toList := by
  decide

/-! ## Hard truncation and entity order -/

set_option maxRecDepth 100000 in
/-- C18 (failing input): a title of 130 letters `a` sanitises to itself, one
word of 130 bytes; the word loop stops before writing it, the hard truncation
finds nothing to cut, and the result is the timestamp placeholder, not the
first 120 bytes of the name. -/
theorem createSafeFilename_single_long_word :
    sanitise UnicodeTables.latin1 (List.replicate 130 'a') = List.replicate 130 'a' ∧
      (List.replicate 130 'a').splitOn '-' = [List.replicate 130 'a'] ∧
      createSafeFilename UnicodeTables.latin1 1700000000 (List.replicate 130 'a') =
        utf8 "episode-1700000000".toList ∧
      createSafeFilename UnicodeTables.latin1 1700000000 (List.replicate 130 'a') ≠
        (utf8 (sanitise UnicodeTables.latin1 (List.replicate 130 'a'))).take 120 := by
  decide

/-- C19 (failing input): on `&amp;lt;` the cleaners return `<` when the entity
loop visits `&amp;` before `&lt;` (the declared order) and `&lt;` when it visits
`&lt;` first (the reverse order). -/
theorem cleaners_depend_on_entity_order :
    constants.HTMLEntities.reverse.Perm constants.HTMLEntities ∧
      cleanTitle constants.HTMLEntities "&amp;lt;".toList = "<".toList ∧
      cleanTitle constants.HTMLEntities.reverse "&amp;lt;".toList = "&lt;".toList ∧
      cleanDescription constants.HTMLEntities "&amp;lt;".toList = "<".toList ∧
      cleanDescription constants.HTMLEntities.reverse "&amp;lt;".toList = "&lt;".toList :=
  ⟨List.reverse_perm _, by decide, by decide, by decide, by decide⟩

/-! ## `SaveEpisode` -/

theorem SaveEpisode_existing (Join : List UInt8 → List UInt8 → List UInt8) (host : Host)
    (s : Storage) (fs : FileSystem) (episode : Episode) (data : List UInt8)
    (h : fs (Join s.dataDir episode.JSONFile) = some data) (hne : data ≠ []) :
    SaveEpisode Join host s fs episode = ⟨fs, [], none⟩ := by
  have hpos : data.length > 0 := List.length_pos.2 hne
  simp [SaveEpisode, h, hpos]

theorem SaveEpisode_success_file (Join : List UInt8 → List UInt8 → List UInt8) (host : Host)
    (s : Storage) (fs : FileSystem) (episode : Episode)
    (hjson : ∀ data, host.MarshalIndent episode = some data → data ≠ [])
    (hok : (SaveEpisode Join host s fs episode).err = none) :
    ∃ data, (SaveEpisode Join host s fs episode).fs (Join s.dataDir episode.JSONFile) =
      some data ∧ data ≠ [] := by
  unfold SaveEpisode at hok ⊢
  simp only at hok ⊢
  split at hok
  · rename_i hp
    rw [if_pos hp]
    cases hf : fs (Join s.dataDir episode.JSONFile) with
    | none => simp [hf] at hp
    | some data =>
      refine ⟨data, hf, ?_⟩
      rintro rfl
      simp [hf] at hp
  · rename_i hp
    rw [if_neg hp]
    cases hm : host.MarshalIndent episode with
    | none => simp [hm] at hok
    | some data =>
      cases hw : host.writeFile with
      | some left => simp [hm, hw] at hok
      | none =>
        simp only [hm, hw]
        exact ⟨data, by simp [FileSystem.write], hjson data hm⟩

/-- C11: if a non-empty file is at the path derived from `e.JSONFile`,
`SaveEpisode` returns success and leaves the whole file system as it was,
whatever the other fields of the episode are; this is the case right after a
successful `SaveEpisode(e)`, the JSON encoding of an episode never being
empty. -/
theorem SaveEpisode_never_overwrites (Join : List UInt8 → List UInt8 → List UInt8)
    (host host' : Host) (s : Storage) (fs : FileSystem) (e e' : Episode)
    (hfile : e'.JSONFile = e.JSONFile) :
    (∀ data, fs (Join s.dataDir e.JSONFile) = some data → data ≠ [] →
        SaveEpisode Join host s fs e' = ⟨fs, [], none⟩) ∧
      ((∀ data, host.MarshalIndent e = some data → data ≠ []) →
        (SaveEpisode Join host s fs e).err = none →
        SaveEpisode Join host' s (SaveEpisode Join host s fs e).fs e' =
          ⟨(SaveEpisode Join host s fs e).fs, [], none⟩) := by
  constructor
  · intro data h hne
    exact SaveEpisode_existing Join host s fs e' data (by rw [hfile]; exact h) hne
  · intro hjson hok
    obtain ⟨data, h, hne⟩ := SaveEpisode_success_file Join host s fs e hjson hok
    exact SaveEpisode_existing Join host' s _ e' data (by rw [hfile]; exact h) hne

theorem SaveEpisode_never_overwrites_witness :
    SaveEpisode exampleJoin offlineHost exampleStorage
        (singleFile (exampleJoin exampleStorage.dataDir exampleEpisode.JSONFile) [123, 125])
        { exampleEpisode with Title := "2. Muret".toList } =
        ⟨singleFile (exampleJoin exampleStorage.dataDir exampleEpisode.JSONFile) [123, 125],
          [], none⟩ ∧
      SaveEpisode exampleJoin offlineHost exampleStorage
        (SaveEpisode exampleJoin (exampleHost []) exampleStorage (fun _ => none)
          exampleEpisode).fs { exampleEpisode with Title := "2. Muret".toList } =
        ⟨(SaveEpisode exampleJoin (exampleHost []) exampleStorage (fun _ => none)
          exampleEpisode).fs, [], none⟩ :=
  have h := SaveEpisode_never_overwrites exampleJoin (exampleHost []) offlineHost
    exampleStorage
  ⟨(SaveEpisode_never_overwrites exampleJoin offlineHost offlineHost exampleStorage
      (singleFile (exampleJoin exampleStorage.dataDir exampleEpisode.JSONFile) [123, 125])
      exampleEpisode { exampleEpisode with Title := "2. Muret".toList } rfl).1 [123, 125]
      (by simp [singleFile]) (by decide),
    (h (fun _ => none) exampleEpisode { exampleEpisode with Title := "2. Muret".toList }
      rfl).2 (by intro data hd; cases hd; decide) (by decide)⟩

/-! ## `DownloadAudio` and `DownloadImage` -/

theorem FileSystem.write_same (fs : FileSystem) (path data : List UInt8) :
    fs.write path data path = some data := by
  simp [FileSystem.write]

theorem tempPath_ne (path : List UInt8) : path ≠ path ++ utf8 constants.TempSuffix := by
  intro h
  have := congrArg List.length h
  rw [List.length_append, utf8_length] at this
  have h4 : len constants.TempSuffix = 4 := by decide
  omega

theorem checkExisting_large (host : Host) (fs : FileSystem) (path data : List UInt8)
    (threshold : Nat) (h : fs path = some data) (hsize : data.length > threshold) :
    checkExisting host fs path threshold = none := by
  simp [checkExisting, h, hsize]

theorem checkExisting_small (host : Host) (fs : FileSystem) (path data : List UInt8)
    (threshold : Nat) (h : fs path = some data) (hsize : data.length ≤ threshold)
    (hrm : host.removeStaleFails = false) :
    checkExisting host fs path threshold = some (fs.remove path) := by
  have : ¬ data.length > threshold := by omega
  simp [checkExisting, h, this, hrm]

theorem fetchFile_requests (host : Host) (fs : FileSystem) (url : List Char)
    (path : List UInt8) (minSize : Nat) :
    (fetchFile host fs url path minSize).requests = [url] := by
  unfold fetchFile
  split
  · rfl
  · simp only
    split
    · rfl
    · split
      · rfl
      · split
        · rfl
        · split
          · rfl
          · split <;> rfl

theorem fetchFile_success (host : Host) (fs : FileSystem) (url : List Char)
    (path : List UInt8) (minSize : Nat)
    (hok : (fetchFile host fs url path minSize).err = none) :
    ∃ code copied fails, host.Get url = .response code copied fails ∧
      minSize ≤ copied.length ∧
      (fetchFile host fs url path minSize).fs path = some copied := by
  unfold fetchFile at hok ⊢
  cases hg : host.Get url with
  | transportError => simp [hg] at hok
  | response code copied fails =>
    refine ⟨code, copied, fails, rfl, ?_⟩
    simp only [hg] at hok ⊢
    split at hok
    · simp at hok
    · rename_i hcode
      rw [if_neg hcode]
      split at hok
      · simp at hok
      · rename_i hcreate
        rw [if_neg hcreate]
        split at hok
        · simp at hok
        · rename_i hcopy
          rw [if_neg hcopy]
          split at hok
          · simp at hok
          · rename_i hsize
            rw [if_neg hsize]
            split at hok
            · simp at hok
            · rename_i hrename
              rw [if_neg hrename]
              refine ⟨by omega, ?_⟩
              simp [FileSystem.remove, FileSystem.write, tempPath_ne path]

theorem DownloadAudio_existing (Join : List UInt8 → List UInt8 → List UInt8) (host : Host)
    (s : Storage) (fs : FileSystem) (e : Episode) (data : List UInt8)
    (h : fs (Join s.dataDir e.Filename) = some data)
    (hsize : data.length > constants.MinAudioFileSize) (hurl : e.AudioURL ≠ []) :
    DownloadAudio Join host s fs e = ⟨fs, [], none⟩ := by
  unfold DownloadAudio
  rw [if_neg hurl]
  split
  · rfl
  · simp only [checkExisting_large host fs _ data _ h hsize]

theorem DownloadImage_existing (Join : List UInt8 → List UInt8 → List UInt8) (host : Host)
    (s : Storage) (fs : FileSystem) (e : Episode) (data : List UInt8)
    (h : fs (Join s.dataDir e.ImageFilename) = some data)
    (hsize : data.length > constants.MinImageFileSize) :
    DownloadImage Join host s fs e = ⟨fs, [], none⟩ := by
  unfold DownloadImage
  split
  · rfl
  · split
    · rfl
    · simp only [checkExisting_large host fs _ data _ h hsize]

theorem DownloadAudio_fetched (Join : List UInt8 → List UInt8 → List UInt8) (host : Host)
    (s : Storage) (fs : FileSystem) (e : Episode)
    (hreq : (DownloadAudio Join host s fs e).requests ≠ []) :
    e.AudioURL ≠ [] ∧ ∃ fs', DownloadAudio Join host s fs e =
      fetchFile host fs' e.AudioURL (Join s.dataDir e.Filename) constants.MinDownloadSize := by
  unfold DownloadAudio at hreq ⊢
  split at hreq
  · exact absurd rfl hreq
  · rename_i hurl
    rw [if_neg hurl]
    refine ⟨hurl, ?_⟩
    split at hreq
    · exact absurd rfl hreq
    · rename_i hfail
      rw [if_neg hfail]
      simp only at hreq ⊢
      cases hc : checkExisting host fs (Join s.dataDir e.Filename) constants.MinAudioFileSize with
      | none => rw [hc] at hreq; exact absurd rfl hreq
      | some fs' => exact ⟨fs', rfl⟩

theorem DownloadImage_fetched (Join : List UInt8 → List UInt8 → List UInt8) (host : Host)
    (s : Storage) (fs : FileSystem) (e : Episode)
    (hreq : (DownloadImage Join host s fs e).requests ≠ []) :
    ∃ fs', DownloadImage Join host s fs e =
      fetchFile host fs' e.Image (Join s.dataDir e.ImageFilename)
        constants.MinImageFileSize := by
  unfold DownloadImage at hreq ⊢
  split at hreq
  · exact absurd rfl hreq
  · rename_i hurl
    rw [if_neg hurl]
    split at hreq
    · exact absurd rfl hreq
    · rename_i hfail
      rw [if_neg hfail]
      simp only at hreq ⊢
      cases hc : checkExisting host fs (Join s.dataDir e.ImageFilename)
          constants.MinImageFileSize with
      | none => rw [hc] at hreq; exact absurd rfl hreq
      | some fs' => exact ⟨fs', rfl⟩

theorem fetchFile_ok (host : Host) (fs : FileSystem) (url : List Char) (path : List UInt8)
    (minSize : Nat) (copied : List UInt8) (hget : host.Get url = .response 200 copied false)
    (hcreate : host.createFails = false) (hrename : host.renameFails = false)
    (hsize : minSize ≤ copied.length) :
    fetchFile host fs url path minSize =
      ⟨((fs.write (path ++ utf8 constants.TempSuffix) copied).write path copied).remove
        (path ++ utf8 constants.TempSuffix), [url], none⟩ := by
  have : ¬ copied.length < minSize := by omega
  simp [fetchFile, hget, hcreate, hrename, this]

theorem DownloadAudio_absent (Join : List UInt8 → List UInt8 → List UInt8) (host : Host)
    (s : Storage) (fs : FileSystem) (e : Episode) (h : fs (Join s.dataDir e.Filename) = none)
    (hurl : e.AudioURL ≠ []) (hfail : ¬ "failed-audio".toList <:+: e.AudioURL) :
    DownloadAudio Join host s fs e =
      fetchFile host fs e.AudioURL (Join s.dataDir e.Filename) constants.MinDownloadSize := by
  unfold DownloadAudio
  rw [if_neg hurl, if_neg hfail]
  simp [checkExisting, h]

theorem DownloadAudio_small (Join : List UInt8 → List UInt8 → List UInt8) (host : Host)
    (s : Storage) (fs : FileSystem) (e : Episode) (data : List UInt8)
    (h : fs (Join s.dataDir e.Filename) = some data)
    (hsize : data.length ≤ constants.MinAudioFileSize) (hrm : host.removeStaleFails = false)
    (hurl : e.AudioURL ≠ []) (hfail : ¬ "failed-audio".toList <:+: e.AudioURL) :
    DownloadAudio Join host s fs e =
      fetchFile host (fs.remove (Join s.dataDir e.Filename)) e.AudioURL
        (Join s.dataDir e.Filename) constants.MinDownloadSize := by
  unfold DownloadAudio
  rw [if_neg hurl, if_neg hfail]
  simp only [checkExisting_small host fs _ data _ h hsize hrm]

theorem DownloadImage_absent (Join : List UInt8 → List UInt8 → List UInt8) (host : Host)
    (s : Storage) (fs : FileSystem) (e : Episode)
    (h : fs (Join s.dataDir e.ImageFilename) = none)
    (hurl : ¬ (e.Image = [] ∨ e.ImageFilename = []))
    (hfail : ¬ "failed-image".toList <:+: e.Image) :
    DownloadImage Join host s fs e =
      fetchFile host fs e.Image (Join s.dataDir e.ImageFilename)
        constants.MinImageFileSize := by
  unfold DownloadImage
  rw [if_neg hurl, if_neg hfail]
  simp [checkExisting, h]

theorem DownloadImage_small (Join : List UInt8 → List UInt8 → List UInt8) (host : Host)
    (s : Storage) (fs : FileSystem) (e : Episode) (data : List UInt8)
    (h : fs (Join s.dataDir e.ImageFilename) = some data)
    (hsize : data.length ≤ constants.MinImageFileSize) (hrm : host.removeStaleFails = false)
    (hurl : ¬ (e.Image = [] ∨ e.ImageFilename = []))
    (hfail : ¬ "failed-image".toList <:+: e.Image) :
    DownloadImage Join host s fs e =
      fetchFile host (fs.remove (Join s.dataDir e.ImageFilename)) e.Image
        (Join s.dataDir e.ImageFilename) constants.MinImageFileSize := by
  unfold DownloadImage
  rw [if_neg hurl, if_neg hfail]
  simp only [checkExisting_small host fs _ data _ h hsize hrm]

theorem singleFile_same (path data : List UInt8) : singleFile path data path = some data := by
  simp [singleFile]

theorem fetchFile_offline (host : Host) (fs : FileSystem) (url : List Char)
    (path : List UInt8) (minSize : Nat) (hget : host.Get url = .transportError) :
    fetchFile host fs url path minSize = ⟨fs, [url], some .downloadFailed⟩ := by
  simp [fetchFile, hget]

theorem FileSystem.remove_same (fs : FileSystem) (path : List UInt8) :
    fs.remove path path = none := by
  simp [FileSystem.remove]

/-- C12 (failing input): a file of exactly the minimum size at the target path
(5120 bytes for the image, 1048576 bytes for the audio) is not kept: with the
network down, the download removes it, makes its request and returns an
error. -/
theorem download_at_threshold_refetches :
    ((DownloadImage exampleJoin offlineHost exampleStorage
        (singleFile (exampleJoin exampleStorage.dataDir exampleEpisode.ImageFilename)
          (List.replicate 5120 0)) exampleEpisode).requests = [exampleEpisode.Image] ∧
      (DownloadImage exampleJoin offlineHost exampleStorage
        (singleFile (exampleJoin exampleStorage.dataDir exampleEpisode.ImageFilename)
          (List.replicate 5120 0)) exampleEpisode).fs
          (exampleJoin exampleStorage.dataDir exampleEpisode.ImageFilename) = none ∧
      (DownloadImage exampleJoin offlineHost exampleStorage
        (singleFile (exampleJoin exampleStorage.dataDir exampleEpisode.ImageFilename)
          (List.replicate 5120 0)) exampleEpisode).err = some .downloadFailed) ∧
    ((DownloadAudio exampleJoin offlineHost exampleStorage
        (singleFile (exampleJoin exampleStorage.dataDir exampleEpisode.Filename)
          (List.replicate 1048576 0)) exampleEpisode).requests = [exampleEpisode.AudioURL] ∧
      (DownloadAudio exampleJoin offlineHost exampleStorage
        (singleFile (exampleJoin exampleStorage.dataDir exampleEpisode.Filename)
          (List.replicate 1048576 0)) exampleEpisode).fs
          (exampleJoin exampleStorage.dataDir exampleEpisode.Filename) = none ∧
      (DownloadAudio exampleJoin offlineHost exampleStorage
        (singleFile (exampleJoin exampleStorage.dataDir exampleEpisode.Filename)
          (List.replicate 1048576 0)) exampleEpisode).err = some .downloadFailed) := by
  have hI := DownloadImage_small exampleJoin offlineHost exampleStorage
    (singleFile (exampleJoin exampleStorage.dataDir exampleEpisode.ImageFilename)
      (List.replicate 5120 0)) exampleEpisode (List.replicate 5120 0)
    (singleFile_same _ _) (by rw [List.length_replicate]; decide) rfl (by decide) (by decide)
  have hA := DownloadAudio_small exampleJoin offlineHost exampleStorage
    (singleFile (exampleJoin exampleStorage.dataDir exampleEpisode.Filename)
      (List.replicate 1048576 0)) exampleEpisode (List.replicate 1048576 0)
    (singleFile_same _ _) (by rw [List.length_replicate]; decide) rfl (by decide) (by decide)
  rw [hI, hA, fetchFile_offline _ _ _ _ _ rfl, fetchFile_offline _ _ _ _ _ rfl]
  exact ⟨⟨rfl, FileSystem.remove_same
      (singleFile (exampleJoin exampleStorage.dataDir exampleEpisode.ImageFilename)
        (List.replicate 5120 0))
      (exampleJoin exampleStorage.dataDir exampleEpisode.ImageFilename), rfl⟩,
    ⟨rfl, FileSystem.remove_same
      (singleFile (exampleJoin exampleStorage.dataDir exampleEpisode.Filename)
        (List.replicate 1048576 0))
      (exampleJoin exampleStorage.dataDir exampleEpisode.Filename), rfl⟩⟩

/-- C13 (as amended): after a `DownloadAudio` (respectively `DownloadImage`)
call that made its request and returned success with a body larger than the
skip threshold (`MinAudioFileSize`, respectively `MinImageFileSize`), a
following call for the same episode returns success, makes no request and
leaves the file system as it is. -/
theorem downloads_idempotent_above_threshold
    (Join : List UInt8 → List UInt8 → List UInt8) (host host' : Host) (s : Storage)
    (fs : FileSystem) (e : Episode) :
    ((DownloadAudio Join host s fs e).requests ≠ [] →
        (DownloadAudio Join host s fs e).err = none →
        (∀ code copied fails, host.Get e.AudioURL = .response code copied fails →
          copied.length > constants.MinAudioFileSize) →
        DownloadAudio Join host' s (DownloadAudio Join host s fs e).fs e =
          ⟨(DownloadAudio Join host s fs e).fs, [], none⟩) ∧
      ((DownloadImage Join host s fs e).requests ≠ [] →
        (DownloadImage Join host s fs e).err = none →
        (∀ code copied fails, host.Get e.Image = .response code copied fails →
          copied.length > constants.MinImageFileSize) →
        DownloadImage Join host' s (DownloadImage Join host s fs e).fs e =
          ⟨(DownloadImage Join host s fs e).fs, [], none⟩) := by
  constructor
  · intro hreq hok hsize
    obtain ⟨hurl, fs', hfetch⟩ := DownloadAudio_fetched Join host s fs e hreq
    rw [hfetch] at hok ⊢
    obtain ⟨code, copied, fails, hget, _, hfile⟩ := fetchFile_success host fs' _ _ _ hok
    exact DownloadAudio_existing Join host' s _ e copied hfile (hsize code copied fails hget)
      hurl
  · intro hreq hok hsize
    obtain ⟨fs', hfetch⟩ := DownloadImage_fetched Join host s fs e hreq
    rw [hfetch] at hok ⊢
    obtain ⟨code, copied, fails, hget, _, hfile⟩ := fetchFile_success host fs' _ _ _ hok
    exact DownloadImage_existing Join host' s _ e copied hfile (hsize code copied fails hget)

theorem FileSystem.renamed_same (fs : FileSystem) (path data : List UInt8) :
    ((fs.write (path ++ utf8 constants.TempSuffix) data).write path data).remove
      (path ++ utf8 constants.TempSuffix) path = some data := by
  simp [FileSystem.remove, FileSystem.write, tempPath_ne path]

theorem exampleHost_download_audio (body : List UInt8)
    (hsize : constants.MinDownloadSize ≤ body.length) :
    DownloadAudio exampleJoin (exampleHost body) exampleStorage emptyFS
        exampleEpisode =
      ⟨((emptyFS.write
          (exampleJoin exampleStorage.dataDir exampleEpisode.Filename
            ++ utf8 constants.TempSuffix) body).write
          (exampleJoin exampleStorage.dataDir exampleEpisode.Filename) body).remove
          (exampleJoin exampleStorage.dataDir exampleEpisode.Filename
            ++ utf8 constants.TempSuffix),
        [exampleEpisode.AudioURL], none⟩ := by
  rw [DownloadAudio_absent exampleJoin (exampleHost body) exampleStorage emptyFS
    exampleEpisode rfl (by decide) (by decide)]
  exact fetchFile_ok (exampleHost body) _ _ _ _ body rfl rfl rfl hsize

theorem exampleHost_download_image (body : List UInt8)
    (hsize : constants.MinImageFileSize ≤ body.length) :
    DownloadImage exampleJoin (exampleHost body) exampleStorage emptyFS
        exampleEpisode =
      ⟨((emptyFS.write
          (exampleJoin exampleStorage.dataDir exampleEpisode.ImageFilename
            ++ utf8 constants.TempSuffix) body).write
          (exampleJoin exampleStorage.dataDir exampleEpisode.ImageFilename) body).remove
          (exampleJoin exampleStorage.dataDir exampleEpisode.ImageFilename
            ++ utf8 constants.TempSuffix),
        [exampleEpisode.Image], none⟩ := by
  rw [DownloadImage_absent exampleJoin (exampleHost body) exampleStorage emptyFS
    exampleEpisode rfl (by decide) (by decide)]
  exact fetchFile_ok (exampleHost body) _ _ _ _ body rfl rfl rfl hsize

theorem downloads_idempotent_above_threshold_witness :
    DownloadAudio exampleJoin offlineHost exampleStorage
        (DownloadAudio exampleJoin (exampleHost (List.replicate 1048577 0)) exampleStorage
          emptyFS exampleEpisode).fs exampleEpisode =
        ⟨(DownloadAudio exampleJoin (exampleHost (List.replicate 1048577 0)) exampleStorage
          emptyFS exampleEpisode).fs, [], none⟩ ∧
      DownloadImage exampleJoin offlineHost exampleStorage
        (DownloadImage exampleJoin (exampleHost (List.replicate 5121 0)) exampleStorage
          emptyFS exampleEpisode).fs exampleEpisode =
        ⟨(DownloadImage exampleJoin (exampleHost (List.replicate 5121 0)) exampleStorage
          emptyFS exampleEpisode).fs, [], none⟩ :=
  ⟨(downloads_idempotent_above_threshold exampleJoin
      (exampleHost (List.replicate 1048577 0)) offlineHost exampleStorage emptyFS
      exampleEpisode).1
      (by rw [exampleHost_download_audio _ (by rw [List.length_replicate]; decide)]
          exact List.cons_ne_nil _ _)
      (by rw [exampleHost_download_audio _ (by rw [List.length_replicate]; decide)])
      (by
        intro code copied fails h
        cases h
        rw [List.length_replicate]; decide),
    (downloads_idempotent_above_threshold exampleJoin
      (exampleHost (List.replicate 5121 0)) offlineHost exampleStorage emptyFS
      exampleEpisode).2
      (by rw [exampleHost_download_image _ (by rw [List.length_replicate]; decide)]
          exact List.cons_ne_nil _ _)
      (by rw [exampleHost_download_image _ (by rw [List.length_replicate]; decide)])
      (by
        intro code copied fails h
        cases h
        rw [List.length_replicate]; decide)⟩

/-- C13 (counterexample): a body of 102400 bytes is accepted by `DownloadAudio`
(it reaches `MinDownloadSize`) and renamed into place, but it is not larger
than `MinAudioFileSize`, so the next call makes the request again. -/
theorem download_audio_twice_refetches :
    (DownloadAudio exampleJoin (exampleHost (List.replicate 102400 0)) exampleStorage
        emptyFS exampleEpisode).err = none ∧
      (DownloadAudio exampleJoin (exampleHost (List.replicate 102400 0)) exampleStorage
        emptyFS exampleEpisode).requests = [exampleEpisode.AudioURL] ∧
      (DownloadAudio exampleJoin (exampleHost (List.replicate 102400 0)) exampleStorage
        (DownloadAudio exampleJoin (exampleHost (List.replicate 102400 0)) exampleStorage
          emptyFS exampleEpisode).fs exampleEpisode).requests =
        [exampleEpisode.AudioURL] := by
  rw [exampleHost_download_audio _ (by rw [List.length_replicate]; decide)]
  refine ⟨rfl, rfl, ?_⟩
  rw [DownloadAudio_small exampleJoin _ exampleStorage _ exampleEpisode
    (List.replicate 102400 0)
    (FileSystem.renamed_same _ _ _)
    (by rw [List.length_replicate]; decide) rfl (by decide) (by decide)]
  exact fetchFile_requests _ _ _ _ _

/-- C14 (as amended): on an episode with an empty `AudioURL`, `DownloadAudio`
returns the error "no audio URL available"; on an episode with an empty `Image`
(or an empty `ImageFilename`), `DownloadImage` returns success; neither makes a
request nor changes a file. -/
theorem downloads_without_url (Join : List UInt8 → List UInt8 → List UInt8) (host : Host)
    (s : Storage) (fs : FileSystem) (e : Episode) :
    (e.AudioURL = [] → DownloadAudio Join host s fs e = ⟨fs, [], some .noAudioURL⟩) ∧
      (e.Image = [] ∨ e.ImageFilename = [] → DownloadImage Join host s fs e = ⟨fs, [], none⟩) := by
  constructor
  · intro h
    unfold DownloadAudio
    rw [if_pos h]
  · intro h
    unfold DownloadImage
    rw [if_pos h]

theorem downloads_without_url_witness :
    DownloadAudio exampleJoin (exampleHost []) exampleStorage emptyFS
        { exampleEpisode with AudioURL := [], Image := [] } =
        ⟨emptyFS, [], some .noAudioURL⟩ ∧
      DownloadImage exampleJoin (exampleHost []) exampleStorage emptyFS
        { exampleEpisode with AudioURL := [], Image := [] } = ⟨emptyFS, [], none⟩ :=
  have h := downloads_without_url exampleJoin (exampleHost []) exampleStorage emptyFS
    { exampleEpisode with AudioURL := [], Image := [] }
  ⟨h.1 rfl, h.2 (Or.inl rfl)⟩

/-- C14 (counterexample): `DownloadAudio` on an episode without audio URL
returns an error, not success. -/
theorem download_audio_without_url_fails :
    (DownloadAudio exampleJoin (exampleHost []) exampleStorage emptyFS
      { exampleEpisode with AudioURL := [] }).err = some .noAudioURL := by
  decide

theorem buildEpisode_placeholder (u : UnicodeTables) (env : ItemEnv) (item : ListItem)
    (haudio : item.Audios = [] ∨ ∃ a rest, item.Audios = a :: rest ∧ a.Text = [])
    (hfetch : extractAudioURL env.audioFetch = none) :
    (buildEpisode u env item).AudioURL =
      constants.FallbackAudioURL ++ "-".toList ++ fmtD item.ID ++ constants.MP3Extension := by
  unfold buildEpisode
  rcases haudio with h | ⟨a, rest, h, ha⟩
  · simp only [h, hfetch]
  · simp only [h, ha, hfetch, ne_eq, not_true_eq_false, if_false]

/-- C15: for every item identifier `id`, an episode whose audio URL is the
placeholder `FallbackAudioURL + "-" + id + ".mp3"` of the collector is skipped
by `DownloadAudio`: success, no request, and the file system as it was. -/
theorem placeholder_audio_is_skipped (Join : List UInt8 → List UInt8 → List UInt8)
    (host : Host) (s : Storage) (fs : FileSystem) (e : Episode) (id : Int)
    (h : e.AudioURL =
      constants.FallbackAudioURL ++ "-".toList ++ fmtD id ++ constants.MP3Extension) :
    DownloadAudio Join host s fs e = ⟨fs, [], none⟩ := by
  have hne : e.AudioURL ≠ [] := by
    rw [h]
    exact List.append_ne_nil_of_left_ne_nil
      (List.append_ne_nil_of_left_ne_nil
        (List.append_ne_nil_of_left_ne_nil (by decide) _) _) _
  have hin : "failed-audio".toList <:+: e.AudioURL := by
    rw [h]
    refine ⟨"https://example.com/".toList, "-".toList ++ fmtD id ++ constants.MP3Extension, ?_⟩
    simp only [constants.FallbackAudioURL, List.append_assoc]
    rfl
  unfold DownloadAudio
  rw [if_neg hne, if_pos hin]

theorem placeholder_audio_is_skipped_witness :
    (buildEpisode UnicodeTables.latin1 exampleItemEnv exampleImageItem).AudioURL =
        "https://example.com/failed-audio-1472799.mp3".toList ∧
      DownloadAudio exampleJoin (exampleHost []) exampleStorage emptyFS
        (buildEpisode UnicodeTables.latin1 exampleItemEnv exampleImageItem) =
        ⟨emptyFS, [], none⟩ :=
  ⟨by decide,
    placeholder_audio_is_skipped exampleJoin (exampleHost []) exampleStorage emptyFS
      (buildEpisode UnicodeTables.latin1 exampleItemEnv exampleImageItem) exampleImageItem.ID
      (buildEpisode_placeholder _ _ _ (Or.inl rfl) rfl)⟩

/-! ## `getEpisodeNumber` -/

theorem isPerlDigit_range (c : Char) (h : isPerlDigit c = true) :
    0x30 ≤ c.toNat ∧ c.toNat ≤ 0x39 := by
  simpa [isPerlDigit] using h

theorem digit_not_space (c : Char) (h : isPerlDigit c = true) : IsSpace c = false := by
  have := isPerlDigit_range c h
  simp only [IsSpace, Bool.or_eq_false_iff, Bool.and_eq_false_iff, decide_eq_false_iff_not,
    beq_eq_false_iff_ne, ne_eq]
  omega

theorem digit_ne (c : Char) (h : isPerlDigit c = true) (x : Char)
    (hx : x.toNat < 0x30 ∨ 0x39 < x.toNat) : c ≠ x := by
  rintro rfl
  have := isPerlDigit_range c h
  omega

theorem Atoi_digits (ds : List Char) (hne : ds ≠ []) (hd : ∀ c ∈ ds, isPerlDigit c = true)
    (hrange : decimalValue ds < 2 ^ 63) : Atoi ds = some (decimalValue ds : Int) := by
  cases ds with
  | nil => exact absurd rfl hne
  | cons d ds =>
    have hdig := hd d (List.mem_cons_self _ _)
    have h1 : d ≠ '+' := digit_ne d hdig '+' (by decide)
    have h2 : d ≠ '-' := digit_ne d hdig '-' (by decide)
    have hall : (d :: ds).all isPerlDigit = true := List.all_eq_true.2 hd
    have hhead : ¬ ((d :: ds).head? = some '-') := by simpa using h2
    unfold Atoi
    simp only [h1, h2, or_self, if_false, List.isEmpty_cons, hall, Bool.not_true, Bool.or_self,
      Bool.false_eq_true, hhead]
    have hlo : (-2 : Int) ^ 63 ≤ (decimalValue (d :: ds) : Int) := by
      have : (0 : Int) ≤ (decimalValue (d :: ds) : Int) := Int.ofNat_nonneg _
      omega
    have hhi : (decimalValue (d :: ds) : Int) < 2 ^ 63 := by exact_mod_cast hrange
    exact if_pos ⟨hlo, hhi⟩

theorem SscanfD_leading_digits (ds rest : List Char) (hne : ds ≠ [])
    (hd : ∀ c ∈ ds, isPerlDigit c = true) (hrest : ∀ x ∈ rest.head?, isPerlDigit x = false)
    (hrange : decimalValue ds < 2 ^ 63) :
    SscanfD (ds ++ rest) = some (decimalValue ds : Int) := by
  cases hds : ds with
  | nil => exact absurd hds hne
  | cons d ds' =>
    rw [← hds]
    have hdig : isPerlDigit d = true := hd d (by rw [hds]; exact List.mem_cons_self _ _)
    have h0 : d ≠ Char.ofNat 10 := digit_ne d hdig _ (by decide)
    have h1 : d ≠ '+' := digit_ne d hdig '+' (by decide)
    have h2 : d ≠ '-' := digit_ne d hdig '-' (by decide)
    have hskip : scanSkipSpace (ds ++ rest) = some (ds ++ rest) := by
      rw [hds]
      simp only [List.cons_append, scanSkipSpace, h0, if_false, digit_not_space d hdig,
        Bool.false_eq_true]
      rfl
    have htake : (ds ++ rest).takeWhile isPerlDigit = ds := by
      rw [List.takeWhile_append_of_pos hd]
      have : rest.takeWhile isPerlDigit = [] := by
        cases rest with
        | nil => rfl
        | cons x xs =>
          have := hrest x (by simp)
          simp [List.takeWhile_cons, this]
      rw [this, List.append_nil]
    have hsign : (match ds ++ rest with
        | c :: _ => if c = '+' ∨ c = '-' then [c] else []
        | [] => ([] : List Char)) = [] := by
      rw [hds]
      simp [h1, h2]
    unfold SscanfD
    simp only [hskip, hsign, List.length_nil, List.drop_zero, htake, List.nil_append]
    have hemp : ds.isEmpty = false := by
      rw [hds]; rfl
    rw [hemp]
    simp only [Bool.false_eq_true, if_false]
    exact Atoi_digits ds hne hd hrange

/-- C17 (as amended): `getEpisodeNumber` takes its three sources in strict
precedence: a title that begins with a positive integer (within the 64-bit
range) gives that integer whatever the description says; failing that, a
description with the chapter pattern gives its number, whatever digits the
title holds; failing that, the first run of digits of the title; and the number
is undeterminable exactly when none of the three applies. -/
theorem getEpisodeNumber_precedence (e : Episode) :
    (∀ ds rest, e.Title = ds ++ rest → ds ≠ [] → (∀ c ∈ ds, isPerlDigit c = true) →
        (∀ x ∈ rest.head?, isPerlDigit x = false) → 0 < decimalValue ds →
        decimalValue ds < 2 ^ 63 → getEpisodeNumber e = some (decimalValue ds : Int)) ∧
      ((∀ n, SscanfD e.Title = some n → n ≤ 0) →
        ∀ m n, findChapter e.Description = some m → Atoi m = some n →
          getEpisodeNumber e = some n) ∧
      ((∀ n, SscanfD e.Title = some n → n ≤ 0) →
        (∀ m, findChapter e.Description = some m → Atoi m = none) →
        ∀ m, findDigits e.Title = some m → getEpisodeNumber e = Atoi m) ∧
      (getEpisodeNumber e = none ↔
        (∀ n, SscanfD e.Title = some n → n ≤ 0) ∧
        (∀ m, findChapter e.Description = some m → Atoi m = none) ∧
        (∀ m, findDigits e.Title = some m → Atoi m = none)) := by
  have first_fails : (∀ n, SscanfD e.Title = some n → n ≤ 0) →
      (match SscanfD e.Title with
        | some num => if num > 0 then some num else none
        | none => (none : Option Int)) = none := by
    intro h
    cases hs : SscanfD e.Title with
    | none => rfl
    | some n =>
      have := h n hs
      simp only
      rw [if_neg (by omega)]
  have second_fails : (∀ m, findChapter e.Description = some m → Atoi m = none) →
      (match findChapter e.Description with
        | some m => Atoi m
        | none => (none : Option Int)) = none := by
    intro h
    cases hs : findChapter e.Description with
    | none => rfl
    | some m => exact h m hs
  refine ⟨?_, ?_, ?_, ?_⟩
  · intro ds rest ht hne hd hrest hpos hrange
    have hs := SscanfD_leading_digits ds rest hne hd hrest hrange
    unfold getEpisodeNumber
    simp only [ht, hs]
    rw [if_pos (by exact_mod_cast hpos)]
  · intro h1 m n hm hn
    unfold getEpisodeNumber
    simp only [first_fails h1, hm, hn]
  · intro h1 h2 m hm
    unfold getEpisodeNumber
    simp only [first_fails h1, second_fails h2, hm]
  · constructor
    · intro hnone
      unfold getEpisodeNumber at hnone
      refine ⟨?_, ?_, ?_⟩
      · intro n hn
        by_contra hpos
        simp only [hn] at hnone
        rw [if_pos (by omega)] at hnone
        cases hnone
      · intro m hm
        cases ha : Atoi m with
        | none => rfl
        | some n =>
          simp only [hm, ha] at hnone
          split at hnone <;> cases hnone
      · intro m hm
        cases ha : Atoi m with
        | none => rfl
        | some n =>
          simp only [hm, ha] at hnone
          split at hnone
          · cases hnone
          · split at hnone <;> cases hnone
    · rintro ⟨h1, h2, h3⟩
      unfold getEpisodeNumber
      simp only [first_fails h1, second_fails h2]
      cases hf : findDigits e.Title with
      | none => rfl
      | some m => exact h3 m hf

theorem getEpisodeNumber_precedence_witness :
    getEpisodeNumber
        { exampleEpisode with Title := "12. Muret".toList, Description := "Capítol 5".toList } =
        some ((decimalValue "12".toList : Nat) : Int) ∧
      getEpisodeNumber
        { exampleEpisode with Title := "Muret 1213".toList, Description := "Capítol 5".toList } =
        some 5 ∧
      getEpisodeNumber
        { exampleEpisode with Title := "Muret 1213".toList, Description := "La batalla".toList } =
        Atoi "1213".toList ∧
      getEpisodeNumber
        { exampleEpisode with Title := "Muret".toList, Description := "La batalla".toList } =
        none :=
  ⟨(getEpisodeNumber_precedence
      { exampleEpisode with Title := "12. Muret".toList, Description := "Capítol 5".toList }).1
      "12".toList ". Muret".toList rfl (by decide) (by decide) (by decide) (by decide)
      (by decide),
    (getEpisodeNumber_precedence
      { exampleEpisode with Title := "Muret 1213".toList,
                            Description := "Capítol 5".toList }).2.1
      (by decide) "5".toList 5 (by decide) (by decide),
    (getEpisodeNumber_precedence
      { exampleEpisode with Title := "Muret 1213".toList,
                            Description := "La batalla".toList }).2.2.1
      (by decide) (by decide) "1213".toList (by decide),
    (getEpisodeNumber_precedence
      { exampleEpisode with Title := "Muret".toList,
                            Description := "La batalla".toList }).2.2.2.2
      ⟨by decide, by decide, by decide⟩⟩

/-- C17 (counterexample): the title `0. Pilot` begins with the integer 0, but
with the description `Capítol 5` the episode number is 5: a leading integer
counts only when it is positive. -/
theorem getEpisodeNumber_leading_zero :
    SscanfD "0. Pilot".toList = some 0 ∧
      getEpisodeNumber
        { exampleEpisode with Title := "0. Pilot".toList, Description := "Capítol 5".toList } =
        some 5 := by
  decide

/-! ## `LoadEpisodes` -/

/-- The comparison of `LoadEpisodes` is a strict weak ordering: irreflexive,
transitive, and with a transitive incomparability. -/
theorem episodeLess_strict_weak :
    (∀ a, episodeLess a a = false) ∧
      (∀ a b c, episodeLess a b = true → episodeLess b c = true → episodeLess a c = true) ∧
      (∀ a b c, episodeLess a b = false → episodeLess b c = false →
        episodeLess a c = false) := by
  refine ⟨?_, ?_, ?_⟩
  · intro a
    unfold episodeLess
    cases getEpisodeNumber a <;> simp
  · intro a b c
    unfold episodeLess
    cases getEpisodeNumber a <;> cases getEpisodeNumber b <;> cases getEpisodeNumber c <;>
      simp
    omega
  · intro a b c
    unfold episodeLess
    cases getEpisodeNumber a <;> cases getEpisodeNumber b <;> cases getEpisodeNumber c <;>
      simp
    omega

theorem episodeLess_false_iff (a b : Episode) :
    episodeLess b a = false ↔
      (getEpisodeNumber b = none ∨
        ∃ i j, getEpisodeNumber a = some i ∧ getEpisodeNumber b = some j ∧ i ≤ j) := by
  unfold episodeLess
  cases getEpisodeNumber a <;> cases getEpisodeNumber b <;> simp

/-- C16: when the walk succeeds, `LoadEpisodes` returns a rearrangement of the
episodes parsed from the metadata files in which every episode with a number
comes before every episode without one and the numbers are in non-decreasing
order; `sort.Slice` is any function that sorts by the comparison. -/
theorem LoadEpisodes_sorted
    (sortSlice : (Episode → Episode → Bool) → List Episode → List Episode)
    (Unmarshal : List UInt8 → Option Episode) (entries : List WalkEntry)
    (parsed : List Episode) (hsort : SortsEpisodes sortSlice)
    (hwalk : walkEpisodes Unmarshal entries = some parsed) :
    ∃ loaded, LoadEpisodes sortSlice Unmarshal entries = some loaded ∧
      loaded.Perm parsed ∧
      loaded.Pairwise (fun a b => getEpisodeNumber a = none → getEpisodeNumber b = none) ∧
      loaded.Pairwise (fun a b => ∀ i j, getEpisodeNumber a = some i →
        getEpisodeNumber b = some j → i ≤ j) := by
  obtain ⟨hperm, hpair⟩ := hsort parsed
  refine ⟨sortSlice episodeLess parsed, by simp [LoadEpisodes, hwalk], hperm, ?_, ?_⟩
  · refine hpair.imp ?_
    intro a b h ha
    rcases (episodeLess_false_iff a b).1 h with hb | ⟨i, j, hi, _, _⟩
    · exact hb
    · rw [ha] at hi; cases hi
  · refine hpair.imp ?_
    intro a b h i j hi hj
    rcases (episodeLess_false_iff a b).1 h with hb | ⟨i', j', hi', hj', hle⟩
    · rw [hb] at hj; cases hj
    · rw [hi] at hi'; rw [hj] at hj'
      cases hi'; cases hj'
      exact hle

theorem exampleSort_sorts : SortsEpisodes exampleSort := by
  intro episodes
  haveI : IsTotal Episode (fun a b => episodeLess b a = false) := by
    constructor
    intro a b
    unfold episodeLess
    cases getEpisodeNumber a <;> cases getEpisodeNumber b <;> simp
    omega
  haveI : IsTrans Episode (fun a b => episodeLess b a = false) :=
    ⟨fun a b c hab hbc => episodeLess_strict_weak.2.2 c b a hbc hab⟩
  exact ⟨List.perm_insertionSort _ _, List.sorted_insertionSort _ _⟩

theorem LoadEpisodes_sorted_witness :
    (∃ loaded, LoadEpisodes exampleSort exampleUnmarshal exampleWalk = some loaded ∧
      loaded.Perm
        [ { exampleEpisode with Title := "3. Capítol".toList, Description := [] },
          { exampleEpisode with Title := "Especial".toList, Description := [] },
          { exampleEpisode with Title := "1. Capítol".toList, Description := [] },
          { exampleEpisode with Title := "2. Capítol".toList, Description := [] } ] ∧
      loaded.Pairwise (fun a b => getEpisodeNumber a = none → getEpisodeNumber b = none) ∧
      loaded.Pairwise (fun a b => ∀ i j, getEpisodeNumber a = some i →
        getEpisodeNumber b = some j → i ≤ j)) ∧
      (LoadEpisodes exampleSort exampleUnmarshal exampleWalk).map
          (fun loaded => loaded.map (fun e => e.Title)) =
        some ["1. Capítol".toList, "2. Capítol".toList, "3. Capítol".toList,
          "Especial".toList] :=
  ⟨LoadEpisodes_sorted exampleSort exampleUnmarshal exampleWalk _ exampleSort_sorts rfl,
    by decide⟩

end EnGuardia
